import Mathlib

/-!
Verification development for the galacticbuf binary codec
(src/galacticbuf.rs of PeterHero/galactic-exchange).

Shallow embedding conventions:
* a Rust byte slice `&[u8]` is a `List Nat` whose members are < 256 on real
  inputs (the decoders read bytes only through pattern matching and
  comparisons, exactly as the source does);
* a Rust `String` is represented by its UTF-8 byte content (`List Nat`);
  the type-level guarantee "a Rust String is valid UTF-8" becomes the
  predicate `utf8Valid`, and `std::str::from_utf8` becomes the same check;
* a Rust `HashMap<FieldName, FieldValue>` is represented by its association
  list in iteration order (`Fields`); HashMap key uniqueness becomes the
  `nodupKeys` predicate, and `collect()` becomes the `collectFields` fold
  (later entries overwrite earlier ones, as HashMap insertion does);
* `i64` is an `Int` together with the two's-complement range bound; casts
  `as u8` / `as u16` are `% 256` / the two-byte truncation in `u16Bytes`;
* each `format!` call site producing a `DeserializeError` in the source
  becomes one constructor of `Err` carrying the same numeric data;
* the mutually recursive deserializers take a fuel argument (decremented at
  every recursive call); fuel exhaustion is `none`, a decode error is
  `some (.error e)`, success is `some (.ok (value, remainingBytes))`.
  The fuel is an artifact of the embedding: the adequacy theorems below
  prove that `2 * bytes.length + 2` fuel always suffices, and the top-level
  entry point `Message.deserialize` runs with exactly that budget.
-/

/-- Big-endian bytes of a `u16` value, i.e. `(n as u16).to_be_bytes()`:
the truncation to 16 bits models the `as u16` cast. -/
def u16Bytes (n : Nat) : List Nat :=
  [n / 256 % 256, n % 256]

/-- Serialization of `i64`: `self.to_be_bytes().to_vec()` — eight
big-endian bytes of the two's-complement representation. -/
def serializeI64 (i : Int) : List Nat :=
  let n : Nat := (i % 18446744073709551616).toNat
  [n / 72057594037927936 % 256, n / 281474976710656 % 256,
   n / 1099511627776 % 256, n / 4294967296 % 256,
   n / 16777216 % 256, n / 65536 % 256, n / 256 % 256, n % 256]

/-- Reassemble an `i64` from eight big-endian bytes, as
`i64::from_be_bytes` does: the 64-bit pattern read as two's complement. -/
def i64OfBytes (b0 b1 b2 b3 b4 b5 b6 b7 : Nat) : Int :=
  let n : Nat := b0 * 72057594037927936 + b1 * 281474976710656 +
    b2 * 1099511627776 + b3 * 4294967296 +
    b4 * 16777216 + b5 * 65536 + b6 * 256 + b7
  if n < 9223372036854775808 then (n : Int) else (n : Int) - 18446744073709551616

/-- Whether a byte is a UTF-8 continuation byte (`0x80..=0xBF`). -/
def utf8Cont (b : Nat) : Bool :=
  128 ≤ b && b < 192

/-- UTF-8 validity of a byte sequence, with the exact acceptance rules of
`std::str::from_utf8`: no overlong forms, no surrogates, maximum scalar
value `0x10FFFF`. -/
def utf8Valid : List Nat → Bool
  | [] => true
  | b0 :: rest =>
    if b0 < 128 then utf8Valid rest
    else if b0 < 194 then false
    else if b0 < 224 then
      match rest with
      | b1 :: rest1 => utf8Cont b1 && utf8Valid rest1
      | [] => false
    else if b0 < 240 then
      match rest with
      | b1 :: b2 :: rest2 =>
        (if b0 = 224 then 160 ≤ b1 && b1 < 192
         else if b0 = 237 then 128 ≤ b1 && b1 < 160
         else utf8Cont b1) && utf8Cont b2 && utf8Valid rest2
      | _ => false
    else if b0 < 245 then
      match rest with
      | b1 :: b2 :: b3 :: rest3 =>
        (if b0 = 240 then 144 ≤ b1 && b1 < 192
         else if b0 = 244 then 128 ≤ b1 && b1 < 144
         else utf8Cont b1) && utf8Cont b2 && utf8Cont b3 && utf8Valid rest3
      | _ => false
    else false

/-- Decode errors: one constructor per `format!` call site constructing a
`DeserializeError` in the source, carrying the same numeric data.
`atIndex`, `atPairFirst` and `atPairSecond` are the positional-context
wrappers added by the `Vec` and tuple decoders. -/
inductive Err where
  | expectedI64 : Err
  | expectedString : Nat → Err
  | invalidUtf8 : Err
  | atIndex : Nat → Err → Err
  | atPairFirst : Err → Err
  | atPairSecond : List Nat → Err → Err
  | expectedU8ElementType : Err
  | expectedU16Count : Err
  | expectedU16Length : Err
  | expectedU8TypeIndicator : Err
  | expectedU8Count : Err
  | unknownListType : Nat → Err
  | unknownFieldType : Nat → Err
  | expectedHeader : Err
  | unsupportedVersion : Nat → Err
  | bufferTooShort : Nat → Nat → Err
  | lengthMismatch : Nat → Nat → Err
deriving DecidableEq

/-- The spec's `TruncatedBuffer` error kind: every "end of buffer" message
of the source. -/
def Err.isTruncated : Err → Bool
  | .expectedI64 => true
  | .expectedString _ => true
  | .expectedU8ElementType => true
  | .expectedU16Count => true
  | .expectedU16Length => true
  | .expectedU8TypeIndicator => true
  | .expectedU8Count => true
  | .expectedHeader => true
  | _ => false

/-- The spec's `UnknownTypeTag` error kind. -/
def Err.isUnknownTypeTag : Err → Bool
  | .unknownListType _ => true
  | .unknownFieldType _ => true
  | _ => false

/-- The spec's `UnsupportedVersion` error kind. -/
def Err.isUnsupportedVersion : Err → Bool
  | .unsupportedVersion _ => true
  | _ => false

/-- The spec's `BufferTooShort` error kind. -/
def Err.isBufferTooShort : Err → Bool
  | .bufferTooShort _ _ => true
  | _ => false

/-- The spec's `LengthMismatch` error kind. -/
def Err.isLengthMismatch : Err → Bool
  | .lengthMismatch _ _ => true
  | _ => false

instance {ε α : Type} [DecidableEq ε] [DecidableEq α] : DecidableEq (Except ε α) :=
  fun x y =>
    match x, y with
    | .error a, .error b =>
      if h : a = b then isTrue (by rw [h]) else isFalse (by simp [h])
    | .error _, .ok _ => isFalse (by simp)
    | .ok _, .error _ => isFalse (by simp)
    | .ok a, .ok b =>
      if h : a = b then isTrue (by rw [h]) else isFalse (by simp [h])

mutual
/-- The `FieldValue` enum: `Integer(i64) | String(StringValue) | List(List)
| Object(Object)`. The `StringValue` newtype is its UTF-8 byte content; the
`Object` newtype is its field mapping. -/
inductive FieldValue where
  | integer : Int → FieldValue
  | string : List Nat → FieldValue
  | list : GbList → FieldValue
  | object : Fields → FieldValue
deriving DecidableEq

/-- The `List` enum: `Integers(Vec<i64>) | Strings(Vec<StringValue>) |
Objects(Vec<Object>)`. -/
inductive GbList where
  | integers : List Int → GbList
  | strings : List (List Nat) → GbList
  | objects : ObjList → GbList
deriving DecidableEq

/-- A `Vec<Object>`, unfolded into the mutual block. -/
inductive ObjList where
  | nil : ObjList
  | cons : Fields → ObjList → ObjList
deriving DecidableEq

/-- A `HashMap<FieldName, FieldValue>` in iteration order (also used for the
intermediate `Vec<(FieldName, FieldValue)>` of the decoders). A `FieldName`
is its UTF-8 byte content. -/
inductive Fields where
  | nil : Fields
  | cons : List Nat → FieldValue → Fields → Fields
deriving DecidableEq
end

/-- The `Header` struct: `version: u8, field_count: u8, length: u16`.
The field widths are carried as side conditions where they matter. -/
structure Header where
  version : Nat
  fieldCount : Nat
  length : Nat
deriving DecidableEq

/-- The `Message` struct: a header and the field mapping. -/
structure Message where
  header : Header
  body : Fields
deriving DecidableEq

/-- Number of entries of a field mapping (`HashMap::len`). -/
def Fields.length : Fields → Nat
  | .nil => 0
  | .cons _ _ rest => Fields.length rest + 1

/-- Number of elements of an object list (`Vec::len`). -/
def ObjList.length : ObjList → Nat
  | .nil => 0
  | .cons _ rest => ObjList.length rest + 1

/-- Whether a key occurs in a field mapping (`HashMap::contains_key`). -/
def Fields.hasKey : Fields → List Nat → Bool
  | .nil, _ => false
  | .cons k _ rest, key => if k = key then true else Fields.hasKey rest key

/-- Key uniqueness of a field mapping: the HashMap representation invariant
of the source (a `HashMap` cannot hold a key twice). -/
def nodupKeys : Fields → Bool
  | .nil => true
  | .cons k _ rest => !(Fields.hasKey rest k) && nodupKeys rest

/-- HashMap insertion on the association-list representation: replace the
value of an existing key in place, otherwise append the new entry. -/
def insertPair : Fields → List Nat → FieldValue → Fields
  | .nil, k, v => .cons k v .nil
  | .cons k' v' rest, k, v =>
    if k' = k then .cons k' v rest else .cons k' v' (insertPair rest k v)

/-- Fold of `collectFields`: insert the decoded pairs left to right. -/
def collectFieldsAux : Fields → Fields → Fields
  | acc, .nil => acc
  | acc, .cons k v rest => collectFieldsAux (insertPair acc k v) rest

/-- The `list.into_iter().collect::<HashMap<_, _>>()` fold of the source's
HashMap decoder: duplicate keys resolve last-write-wins. -/
def collectFields (l : Fields) : Fields :=
  collectFieldsAux .nil l

/-- Lookup in a field mapping (`HashMap::get`). -/
def Fields.lookup : Fields → List Nat → Option FieldValue
  | .nil, _ => none
  | .cons k v rest, key => if k = key then some v else Fields.lookup rest key

/-- Concatenation of field sequences (used to state fold lemmas). -/
def Fields.append : Fields → Fields → Fields
  | .nil, m => m
  | .cons k v rest, m => .cons k v (Fields.append rest m)

/-- List-like induction on a field sequence (the mutual recursor of
`Fields` specialised to a single motive that does not descend into the
values). -/
def Fields.inductionOn {motive : Fields → Prop} (l : Fields)
    (nil : motive .nil)
    (cons : ∀ k v rest, motive rest → motive (.cons k v rest)) : motive l :=
  match l with
  | .nil => nil
  | .cons k v rest => cons k v rest (Fields.inductionOn rest nil cons)

/-- Serialization of a raw string: `self.as_bytes().to_vec()` — the UTF-8
bytes with no length or terminator (the string is its bytes here). -/
def serializeString (s : List Nat) : List Nat := s

/-- Serialization of a `StringValue`: 2-byte big-endian length, then the
UTF-8 bytes (`(self.0.len() as u16).to_be_bytes()` then the bytes). -/
def serializeStringValue (s : List Nat) : List Nat :=
  u16Bytes s.length ++ s

/-- Serialization of a `FieldName`: 1-byte length, then the UTF-8 bytes
(`self.0.len() as u8` then the bytes). -/
def serializeFieldName (k : List Nat) : List Nat :=
  (k.length % 256) :: k

/-- Serialization of a `Vec<i64>`: element encodings concatenated. -/
def serializeIntegers : List Int → List Nat
  | [] => []
  | x :: xs => serializeI64 x ++ serializeIntegers xs

/-- Serialization of a `Vec<StringValue>`: element encodings concatenated. -/
def serializeStringValues : List (List Nat) → List Nat
  | [] => []
  | s :: ss => serializeStringValue s ++ serializeStringValues ss

mutual
/-- Serialization of a `FieldValue`: 1-byte type tag, then the value's own
encoding. -/
def serializeFieldValue : FieldValue → List Nat
  | .integer i => 1 :: serializeI64 i
  | .string s => 2 :: serializeStringValue s
  | .list l => 3 :: serializeGbList l
  | .object o => 4 :: (Fields.length o % 256) :: serializeFields o

/-- Serialization of a `List`: element-type tag, 2-byte big-endian element
count (`count as u16`, guarded by the source's `assert!(count <= 65535)`),
then the element encodings. -/
def serializeGbList : GbList → List Nat
  | .integers xs => 1 :: (u16Bytes xs.length ++ serializeIntegers xs)
  | .strings ss => 2 :: (u16Bytes ss.length ++ serializeStringValues ss)
  | .objects os => 4 :: (u16Bytes (ObjList.length os) ++ serializeObjList os)

/-- Serialization of a `Vec<Object>`: element encodings concatenated; each
object is its 1-byte field count (`len as u8`, guarded by the source's
`assert!(count <= 255)`) then its serialized fields. -/
def serializeObjList : ObjList → List Nat
  | .nil => []
  | .cons o rest =>
    ((Fields.length o % 256) :: serializeFields o) ++ serializeObjList rest

/-- Serialization of a field mapping: each entry's `FieldName` then
`FieldValue` encodings, concatenated in iteration order. -/
def serializeFields : Fields → List Nat
  | .nil => []
  | .cons k v rest =>
    serializeFieldName k ++ serializeFieldValue v ++ serializeFields rest
end

/-- Serialization of an `Object`: 1-byte field count then the fields. -/
def serializeObject (o : Fields) : List Nat :=
  (Fields.length o % 256) :: serializeFields o

/-- Serialization of a `Header`:
`vec![version, field_count, length_be[0], length_be[1]]`. -/
def serializeHeader (h : Header) : List Nat :=
  [h.version, h.fieldCount] ++ u16Bytes h.length

/-- Serialization of a `Message`: header bytes then body bytes. -/
def Message.serialize (m : Message) : List Nat :=
  serializeHeader m.header ++ serializeFields m.body

/-- Whether an `Int` lies in the `i64` range (the Rust type invariant). -/
def i64Range (i : Int) : Bool :=
  decide (-9223372036854775808 ≤ i) && decide (i < 9223372036854775808)

mutual
/-- Well-formedness of a `FieldValue` as an in-memory Rust value respecting
the encoder's size limits: `i64` range, strings valid UTF-8 of encodable
length, objects with ≤ 255 fields and unique keys (HashMap invariant). -/
def fieldValueWf : FieldValue → Bool
  | .integer i => i64Range i
  | .string s => utf8Valid s && decide (s.length ≤ 65535)
  | .list l => gbListWf l
  | .object o => fieldsWf o && decide (Fields.length o ≤ 255) && nodupKeys o

/-- Well-formedness of a `List` value: element count ≤ 65535 and
well-formed elements. -/
def gbListWf : GbList → Bool
  | .integers xs => decide (xs.length ≤ 65535) && xs.all i64Range
  | .strings ss =>
    decide (ss.length ≤ 65535) &&
      ss.all (fun s => utf8Valid s && decide (s.length ≤ 65535))
  | .objects os => decide (ObjList.length os ≤ 65535) && objListWf os

/-- Well-formedness of a `Vec<Object>` value. -/
def objListWf : ObjList → Bool
  | .nil => true
  | .cons o rest =>
    fieldsWf o && decide (Fields.length o ≤ 255) && nodupKeys o && objListWf rest

/-- Well-formedness of the entries of a field mapping: names valid UTF-8 of
length ≤ 255, values well-formed. (Key uniqueness is stated separately,
because the decoders also use `Fields` for the raw decoded pair sequence,
where duplicates are allowed.) -/
def fieldsWf : Fields → Bool
  | .nil => true
  | .cons k v rest =>
    utf8Valid k && decide (k.length ≤ 255) && fieldValueWf v && fieldsWf rest
end

/-- A `Message` value as the round-trip properties quantify it: a version-1
header whose `field_count` equals the number of entries and whose `length`
equals the exact serialized byte length (the data-model invariants), sizes
within the encoder's limits, and the HashMap/String type invariants
(unique keys, valid UTF-8). -/
def messageValid (m : Message) : Prop :=
  m.header.version = 1 ∧
  m.header.fieldCount = Fields.length m.body ∧
  m.header.length = m.serialize.length ∧
  m.header.length < 65536 ∧
  Fields.length m.body ≤ 255 ∧
  fieldsWf m.body = true ∧
  nodupKeys m.body = true

instance (m : Message) : Decidable (messageValid m) := by
  unfold messageValid; infer_instance

/-- Deserialization of an `i64`: read exactly eight bytes, else
"expected i64, end of buffer!". -/
def deserializeI64 : List Nat → Except Err (Int × List Nat)
  | b0 :: b1 :: b2 :: b3 :: b4 :: b5 :: b6 :: b7 :: rest =>
    .ok (i64OfBytes b0 b1 b2 b3 b4 b5 b6 b7, rest)
  | _ => .error .expectedI64

/-- Deserialization of a raw string: take `count` bytes (0 when the count
is absent; a zero count yields the empty string without touching the
buffer), validate UTF-8, return the bytes and the remainder. -/
def deserializeString (bytes : List Nat) (count : Option Nat) :
    Except Err (List Nat × List Nat) :=
  let count := count.getD 0
  if count = 0 then .ok ([], bytes)
  else if count ≤ bytes.length then
    if utf8Valid (bytes.take count) then .ok (bytes.take count, bytes.drop count)
    else .error .invalidUtf8
  else .error (.expectedString count)

/-- Deserialization of a `StringValue`: 2-byte big-endian length (else
"expected u16 (length), end of buffer!"), then the raw string decoder with
that count. -/
def deserializeStringValue : List Nat → Except Err (List Nat × List Nat)
  | b0 :: b1 :: rest => deserializeString rest (some (b0 * 256 + b1))
  | _ => .error .expectedU16Length

/-- Deserialization of a `FieldName`: 1-byte length (the source reuses the
"expected u8 (element type)" message here), then the raw string decoder
with that count. -/
def deserializeFieldName : List Nat → Except Err (List Nat × List Nat)
  | b :: rest => deserializeString rest (some b)
  | [] => .error .expectedU8ElementType

/-- Deserialization of a `Vec<i64>`: decode `count` elements in order,
threading the buffer; an element's error is wrapped with its index. -/
def deserializeIntegersAux (i : Nat) : Nat → List Nat →
    Except Err (List Int × List Nat)
  | 0, bytes => .ok ([], bytes)
  | count + 1, bytes =>
    match deserializeI64 bytes with
    | .error e => .error (.atIndex i e)
    | .ok (x, rest) =>
      match deserializeIntegersAux (i + 1) count rest with
      | .error e => .error e
      | .ok (xs, rest2) => .ok (x :: xs, rest2)

/-- Deserialization of a `Vec<StringValue>`: decode `count` elements in
order, threading the buffer; an element's error is wrapped with its
index. -/
def deserializeStringValuesAux (i : Nat) : Nat → List Nat →
    Except Err (List (List Nat) × List Nat)
  | 0, bytes => .ok ([], bytes)
  | count + 1, bytes =>
    match deserializeStringValue bytes with
    | .error e => .error (.atIndex i e)
    | .ok (s, rest) =>
      match deserializeStringValuesAux (i + 1) count rest with
      | .error e => .error e
      | .ok (ss, rest2) => .ok (s :: ss, rest2)

/-- Deserialization of a `Header`: require four bytes (else "expected
4 byte header, end of buffer!"), read version, field count and the 2-byte
big-endian length; no semantic validation here. -/
def deserializeHeader : List Nat → Except Err (Header × List Nat)
  | b0 :: b1 :: b2 :: b3 :: rest => .ok (⟨b0, b1, b2 * 256 + b3⟩, rest)
  | _ => .error .expectedHeader

mutual
/-- Deserialization of a `FieldValue`: 1-byte type tag (else "expected u8
(type indicator), end of buffer!"), then dispatch on the tag; an
unrecognized tag is an unknown-type error naming the byte. -/
def deserializeFieldValueF : Nat → List Nat →
    Option (Except Err (FieldValue × List Nat))
  | 0, _ => none
  | fuel + 1, bytes =>
    match bytes with
    | [] => some (.error .expectedU8TypeIndicator)
    | t :: rest =>
      if t = 1 then
        match deserializeI64 rest with
        | .error e => some (.error e)
        | .ok (x, r) => some (.ok (.integer x, r))
      else if t = 2 then
        match deserializeStringValue rest with
        | .error e => some (.error e)
        | .ok (s, r) => some (.ok (.string s, r))
      else if t = 3 then
        match deserializeGbListF fuel rest with
        | none => none
        | some (.error e) => some (.error e)
        | some (.ok (l, r)) => some (.ok (.list l, r))
      else if t = 4 then
        match deserializeObjectF fuel rest with
        | none => none
        | some (.error e) => some (.error e)
        | some (.ok (o, r)) => some (.ok (.object o, r))
      else some (.error (.unknownFieldType t))

/-- Deserialization of a `List`: 1-byte element-type tag (else "expected u8
(element type)"), 2-byte big-endian count (else "expected u16 (count)",
checked before the tag is inspected, as in the source), then dispatch to
the element decoder; an unrecognized element tag is an unknown-type
error. -/
def deserializeGbListF : Nat → List Nat →
    Option (Except Err (GbList × List Nat))
  | 0, _ => none
  | fuel + 1, bytes =>
    match bytes with
    | [] => some (.error .expectedU8ElementType)
    | t :: rest =>
      match rest with
      | c1 :: c2 :: rest2 =>
        if t = 1 then
          match deserializeIntegersAux 0 (c1 * 256 + c2) rest2 with
          | .error e => some (.error e)
          | .ok (xs, r) => some (.ok (.integers xs, r))
        else if t = 2 then
          match deserializeStringValuesAux 0 (c1 * 256 + c2) rest2 with
          | .error e => some (.error e)
          | .ok (ss, r) => some (.ok (.strings ss, r))
        else if t = 4 then
          match deserializeObjectsAux 0 fuel (c1 * 256 + c2) rest2 with
          | none => none
          | some (.error e) => some (.error e)
          | some (.ok (os, r)) => some (.ok (.objects os, r))
        else some (.error (.unknownListType t))
      | _ => some (.error .expectedU16Count)

/-- Deserialization of a `Vec<Object>`: decode `count` objects in order;
an element's error is wrapped with its index. -/
def deserializeObjectsAux : Nat → Nat → Nat → List Nat →
    Option (Except Err (ObjList × List Nat))
  | _, 0, _, _ => none
  | _, _ + 1, 0, bytes => some (.ok (.nil, bytes))
  | i, fuel + 1, count + 1, bytes =>
    match deserializeObjectF fuel bytes with
    | none => none
    | some (.error e) => some (.error (.atIndex i e))
    | some (.ok (o, rest)) =>
      match deserializeObjectsAux (i + 1) fuel count rest with
      | none => none
      | some (.error e) => some (.error e)
      | some (.ok (os, rest2)) => some (.ok (.cons o os, rest2))

/-- Deserialization of an `Object`: 1-byte field count (else "expected u8
(count)"), then the HashMap decoder (`count` pairs folded last-write-wins
into a mapping). -/
def deserializeObjectF : Nat → List Nat →
    Option (Except Err (Fields × List Nat))
  | 0, _ => none
  | fuel + 1, bytes =>
    match bytes with
    | [] => some (.error .expectedU8Count)
    | c :: rest =>
      match deserializeFieldsAux 0 fuel c rest with
      | none => none
      | some (.error e) => some (.error e)
      | some (.ok (l, r)) => some (.ok (collectFields l, r))

/-- Deserialization of a `Vec<(FieldName, FieldValue)>`: decode `count`
pairs in order; a pair's error is wrapped with its index. -/
def deserializeFieldsAux : Nat → Nat → Nat → List Nat →
    Option (Except Err (Fields × List Nat))
  | _, 0, _, _ => none
  | _, _ + 1, 0, bytes => some (.ok (.nil, bytes))
  | i, fuel + 1, count + 1, bytes =>
    match deserializePairF fuel bytes with
    | none => none
    | some (.error e) => some (.error (.atIndex i e))
    | some (.ok ((k, v), rest)) =>
      match deserializeFieldsAux (i + 1) fuel count rest with
      | none => none
      | some (.error e) => some (.error e)
      | some (.ok (l, rest2)) => some (.ok (.cons k v l, rest2))

/-- Deserialization of a `(FieldName, FieldValue)` pair: first component
then second, with the tuple decoder's context wrapping ("at (u, _)" for
the first, the debug rendering of the key for the second). -/
def deserializePairF : Nat → List Nat →
    Option (Except Err ((List Nat × FieldValue) × List Nat))
  | 0, _ => none
  | fuel + 1, bytes =>
    match deserializeFieldName bytes with
    | .error e => some (.error (.atPairFirst e))
    | .ok (k, rest) =>
      match deserializeFieldValueF fuel rest with
      | none => none
      | some (.error e) => some (.error (.atPairSecond k e))
      | some (.ok (v, r)) => some (.ok ((k, v), r))
end

/-- Deserialization of a `HashMap<FieldName, FieldValue>` given an external
pair count: decode the pair sequence, then fold it last-write-wins. -/
def deserializeHashMapF (fuel count : Nat) (bytes : List Nat) :
    Option (Except Err (Fields × List Nat)) :=
  match deserializeFieldsAux 0 fuel count bytes with
  | none => none
  | some (.error e) => some (.error e)
  | some (.ok (l, r)) => some (.ok (collectFields l, r))

/-- Deserialization of a `Message`: parse the header; require version
`0x01`; require the declared length to be at most the physically available
bytes (the `BufferTooShort` pre-check); decode `field_count` pairs into the
body; require the consumed byte count to equal the declared length
exactly; return the message and the unconsumed remainder. -/
def deserializeMessageF (fuel : Nat) (bytes : List Nat) :
    Option (Except Err (Message × List Nat)) :=
  match deserializeHeader bytes with
  | .error e => some (.error e)
  | .ok (header, rest) =>
    if header.version ≠ 1 then
      some (.error (.unsupportedVersion header.version))
    else if rest.length + 4 < header.length then
      some (.error (.bufferTooShort (rest.length + 4) header.length))
    else
      match deserializeHashMapF fuel header.fieldCount rest with
      | none => none
      | some (.error e) => some (.error e)
      | some (.ok (body, rest2)) =>
        if bytes.length - rest2.length ≠ header.length then
          some (.error (.lengthMismatch (bytes.length - rest2.length) header.length))
        else some (.ok (⟨header, body⟩, rest2))

/-- Top-level decode entry point (`Message::deserialize`), run at the fuel
budget `2 * bytes.length + 2`, which the adequacy theorem below proves
sufficient for every input: the result is never `none`. -/
def Message.deserialize (bytes : List Nat) :
    Option (Except Err (Message × List Nat)) :=
  deserializeMessageF (2 * bytes.length + 2) bytes

/-- UTF-8 bytes of an ASCII string, for readable concrete messages. -/
def asciiBytes (s : String) : List Nat :=
  s.data.map (fun c => c.toNat)

/-- The flat record of the spec's first scenario:
`{user_id: 1001, name: "Alice", scores: [100, 200, 300]}` with
`field_count = 3` and `length = 69`, in the field order of the scenario. -/
def msgFlat : Message :=
  ⟨⟨1, 3, 69⟩,
    .cons (asciiBytes "user_id") (.integer 1001)
      (.cons (asciiBytes "name") (.string (asciiBytes "Alice"))
        (.cons (asciiBytes "scores") (.list (.integers [100, 200, 300])) .nil))⟩

/-- The 69-byte wire image of the flat-record scenario, exactly as listed
in the spec and in the source's `simple_message` test. -/
def flatBytes : List Nat :=
  [0x01, 0x03, 0x00, 0x45,
   0x07, 0x75, 0x73, 0x65, 0x72, 0x5F, 0x69, 0x64,
   0x01, 0x00, 0x00, 0x00, 0x00, 0x00, 0x00, 0x03, 0xE9,
   0x04, 0x6E, 0x61, 0x6D, 0x65,
   0x02, 0x00, 0x05, 0x41, 0x6C, 0x69, 0x63, 0x65,
   0x06, 0x73, 0x63, 0x6F, 0x72, 0x65, 0x73,
   0x03, 0x01, 0x00, 0x03,
   0x00, 0x00, 0x00, 0x00, 0x00, 0x00, 0x00, 0x64,
   0x00, 0x00, 0x00, 0x00, 0x00, 0x00, 0x00, 0xC8,
   0x00, 0x00, 0x00, 0x00, 0x00, 0x00, 0x01, 0x2C]

example : serializeFieldValue (.integer 1001) =
    [1, 0, 0, 0, 0, 0, 0, 3, 233] := rfl

example : Message.deserialize [1, 0, 0, 4, 9] =
    some (.ok (⟨⟨1, 0, 4⟩, .nil⟩, [9])) := rfl

/-! ### Round-trip lemmas for the primitive and scalar codecs -/

theorem serializeI64_length (i : Int) : (serializeI64 i).length = 8 := rfl

/-- Decoding the eight big-endian bytes of an in-range `i64` recovers it. -/
theorem deserializeI64_roundtrip (i : Int) (h : i64Range i = true)
    (rest : List Nat) :
    deserializeI64 (serializeI64 i ++ rest) = .ok (i, rest) := by
  simp only [i64Range, Bool.and_eq_true, decide_eq_true_eq] at h
  simp only [serializeI64, deserializeI64, List.cons_append, List.nil_append,
    i64OfBytes, Except.ok.injEq, Prod.mk.injEq, and_true]
  split <;> omega

/-- Decoding a valid UTF-8 byte string with its own byte count recovers it. -/
theorem deserializeString_roundtrip (s : List Nat) (h : utf8Valid s = true)
    (rest : List Nat) :
    deserializeString (s ++ rest) (some s.length) = .ok (s, rest) := by
  unfold deserializeString
  simp only [Option.getD_some]
  by_cases h0 : s.length = 0
  · have hs : s = [] := List.eq_nil_of_length_eq_zero h0
    subst hs; simp
  · rw [if_neg h0, if_pos (by simp [List.length_append]),
      List.take_left, List.drop_left, if_pos h]

/-- Decoding a serialized `FieldName` of length ≤ 255 recovers it. -/
theorem deserializeFieldName_roundtrip (k : List Nat)
    (h : utf8Valid k = true) (hlen : k.length ≤ 255) (rest : List Nat) :
    deserializeFieldName (serializeFieldName k ++ rest) = .ok (k, rest) := by
  have hmod : k.length % 256 = k.length := Nat.mod_eq_of_lt (by omega)
  simp only [serializeFieldName, List.cons_append, deserializeFieldName, hmod]
  exact deserializeString_roundtrip k h rest

/-- Decoding a serialized `StringValue` of length ≤ 65535 recovers it. -/
theorem deserializeStringValue_roundtrip (s : List Nat)
    (h : utf8Valid s = true) (hlen : s.length ≤ 65535) (rest : List Nat) :
    deserializeStringValue (serializeStringValue s ++ rest) = .ok (s, rest) := by
  simp only [serializeStringValue, u16Bytes, List.cons_append, List.nil_append,
    List.append_assoc, deserializeStringValue]
  have hval : s.length / 256 % 256 * 256 + s.length % 256 = s.length := by omega
  rw [hval]
  exact deserializeString_roundtrip s h rest

/-- Decoding a serialized `Vec<i64>` with its element count recovers it. -/
theorem deserializeIntegersAux_roundtrip (xs : List Int)
    (h : xs.all i64Range = true) :
    ∀ (i : Nat) (rest : List Nat),
      deserializeIntegersAux i xs.length (serializeIntegers xs ++ rest) =
        .ok (xs, rest) := by
  induction xs with
  | nil => intro i rest; simp [serializeIntegers, deserializeIntegersAux]
  | cons x xs ih =>
    intro i rest
    simp only [List.all_cons, Bool.and_eq_true] at h
    simp only [serializeIntegers, List.append_assoc, List.length_cons,
      deserializeIntegersAux]
    rw [deserializeI64_roundtrip x h.1]
    simp only []
    rw [ih h.2]

/-- Decoding a serialized `Vec<StringValue>` with its element count recovers
it. -/
theorem deserializeStringValuesAux_roundtrip (ss : List (List Nat))
    (h : ss.all (fun s => utf8Valid s && decide (s.length ≤ 65535)) = true) :
    ∀ (i : Nat) (rest : List Nat),
      deserializeStringValuesAux i ss.length (serializeStringValues ss ++ rest) =
        .ok (ss, rest) := by
  induction ss with
  | nil => intro i rest; simp [serializeStringValues, deserializeStringValuesAux]
  | cons s ss ih =>
    intro i rest
    simp only [List.all_cons, Bool.and_eq_true, decide_eq_true_eq] at h
    simp only [serializeStringValues, List.append_assoc, List.length_cons,
      deserializeStringValuesAux]
    rw [deserializeStringValue_roundtrip s h.1.1 h.1.2]
    simp only []
    rw [ih h.2]

/-! ### Lemmas about the HashMap fold -/

theorem serializeFieldValue_length_pos (v : FieldValue) :
    1 ≤ (serializeFieldValue v).length := by
  cases v <;> simp [serializeFieldValue]

theorem serializeFieldName_length (k : List Nat) :
    (serializeFieldName k).length = k.length + 1 := by
  simp [serializeFieldName]

theorem Fields.append_nil (a : Fields) : Fields.append a .nil = a := by
  induction a using Fields.inductionOn <;> simp [Fields.append, *]

theorem Fields.append_assoc (a b c : Fields) :
    Fields.append (Fields.append a b) c = Fields.append a (Fields.append b c) := by
  induction a using Fields.inductionOn <;> simp [Fields.append, *]

theorem hasKey_append (a b : Fields) (key : List Nat) :
    Fields.hasKey (Fields.append a b) key =
      (Fields.hasKey a key || Fields.hasKey b key) := by
  induction a using Fields.inductionOn with
  | nil => simp [Fields.append, Fields.hasKey]
  | cons k v rest ih =>
    by_cases hk : k = key <;> simp [Fields.append, Fields.hasKey, hk, ih]

theorem insertPair_of_hasKey_eq_false (acc : Fields) (k : List Nat)
    (v : FieldValue) (h : Fields.hasKey acc k = false) :
    insertPair acc k v = Fields.append acc (.cons k v .nil) := by
  induction acc using Fields.inductionOn with
  | nil => simp [insertPair, Fields.append]
  | cons k' v' rest ih =>
    by_cases hk : k' = k
    · simp [Fields.hasKey, hk] at h
    · simp only [Fields.hasKey, if_neg hk] at h
      simp [insertPair, hk, Fields.append, ih h]

theorem collectFieldsAux_disjoint (l : Fields) :
    ∀ acc, nodupKeys l = true →
      (∀ key, Fields.hasKey l key = true → Fields.hasKey acc key = false) →
      collectFieldsAux acc l = Fields.append acc l := by
  induction l using Fields.inductionOn with
  | nil =>
    intro acc _ _
    simp [collectFieldsAux, Fields.append_nil]
  | cons k v rest ih =>
    intro acc hnd hdisj
    simp only [nodupKeys, Bool.and_eq_true, Bool.not_eq_true'] at hnd
    have hk : Fields.hasKey acc k = false := hdisj k (by simp [Fields.hasKey])
    simp only [collectFieldsAux]
    rw [insertPair_of_hasKey_eq_false acc k v hk]
    rw [ih (Fields.append acc (.cons k v .nil)) hnd.2 ?_]
    · rw [Fields.append_assoc]
      simp [Fields.append]
    · intro key hkey
      rw [hasKey_append]
      have h1 : Fields.hasKey acc key = false := by
        refine hdisj key ?_
        by_cases hkk : k = key <;> simp [Fields.hasKey, hkk, hkey]
      have h2 : k ≠ key := by
        intro hkk
        rw [hkk] at hnd
        rw [hnd.1] at hkey
        exact Bool.false_ne_true hkey
      simp [h1, Fields.hasKey, h2]

/-- Folding a duplicate-free pair sequence into a mapping returns it
unchanged. -/
theorem collectFields_self (l : Fields) (h : nodupKeys l = true) :
    collectFields l = l := by
  unfold collectFields
  rw [collectFieldsAux_disjoint l .nil h (fun key _ => rfl)]
  rfl

theorem collectFieldsAux_append (l m : Fields) :
    ∀ acc, collectFieldsAux acc (Fields.append l m) =
      collectFieldsAux (collectFieldsAux acc l) m := by
  induction l using Fields.inductionOn with
  | nil => intro acc; rfl
  | cons k v rest ih => intro acc; simp [Fields.append, collectFieldsAux, ih]

theorem lookup_insertPair (acc : Fields) (k : List Nat) (v : FieldValue) :
    Fields.lookup (insertPair acc k v) k = some v := by
  induction acc using Fields.inductionOn with
  | nil => simp [insertPair, Fields.lookup]
  | cons k' v' rest ih =>
    by_cases hk : k' = k <;> simp [insertPair, hk, Fields.lookup, ih]

/-- Last-write-wins: after the fold, a key maps to the value of its last
occurrence in the decoded pair sequence. -/
theorem lookup_collect_last (l : Fields) (k : List Nat) (v : FieldValue) :
    Fields.lookup (collectFields (Fields.append l (.cons k v .nil))) k = some v := by
  unfold collectFields
  rw [collectFieldsAux_append]
  simp [collectFieldsAux, lookup_insertPair]

/-! ### Round-trip of the recursive value codecs -/

mutual
/-- Decoding a serialized well-formed `FieldValue` with enough fuel recovers
it and leaves the trailing bytes untouched. -/
theorem rt_fieldValue (v : FieldValue) (hw : fieldValueWf v = true) :
    ∀ (fuel : Nat) (rest : List Nat),
      2 * (serializeFieldValue v).length + 1 ≤ fuel →
      deserializeFieldValueF fuel (serializeFieldValue v ++ rest) =
        some (.ok (v, rest)) := by
  intro fuel rest hfuel
  cases fuel with
  | zero => exact absurd hfuel (by omega)
  | succ f =>
    cases v with
    | integer i =>
      simp only [fieldValueWf] at hw
      have hsub := deserializeI64_roundtrip i hw rest
      simp [serializeFieldValue, deserializeFieldValueF, hsub]
    | string s =>
      simp only [fieldValueWf, Bool.and_eq_true, decide_eq_true_eq] at hw
      have hsub := deserializeStringValue_roundtrip s hw.1 hw.2 rest
      simp [serializeFieldValue, deserializeFieldValueF, hsub]
    | list l =>
      simp only [fieldValueWf] at hw
      have hlen : (serializeFieldValue (.list l)).length =
          (serializeGbList l).length + 1 := by
        simp only [serializeFieldValue, List.length_cons]
      have hsub := rt_gbList l hw f rest (by omega)
      simp [serializeFieldValue, deserializeFieldValueF, hsub]
    | object o =>
      simp only [fieldValueWf, Bool.and_eq_true, decide_eq_true_eq] at hw
      have hlen : (serializeFieldValue (.object o)).length =
          (serializeFields o).length + 2 := by
        simp only [serializeFieldValue, List.length_cons]
      have hobj : deserializeObjectF f
          ((Fields.length o % 256) :: (serializeFields o ++ rest)) =
          some (.ok (o, rest)) := by
        cases f with
        | zero => exact absurd hfuel (by omega)
        | succ f2 =>
          have hfl := rt_fields o hw.1.1 0 f2 rest (by omega)
          simp [deserializeObjectF,
            Nat.mod_eq_of_lt (show Fields.length o < 256 by omega), hfl,
            collectFields_self o hw.2]
      simp [serializeFieldValue, deserializeFieldValueF, hobj]

/-- Decoding a serialized well-formed `List` with enough fuel recovers it. -/
theorem rt_gbList (l : GbList) (hw : gbListWf l = true) :
    ∀ (fuel : Nat) (rest : List Nat),
      2 * (serializeGbList l).length + 1 ≤ fuel →
      deserializeGbListF fuel (serializeGbList l ++ rest) =
        some (.ok (l, rest)) := by
  intro fuel rest hfuel
  cases fuel with
  | zero => exact absurd hfuel (by omega)
  | succ f =>
    cases l with
    | integers xs =>
      simp only [gbListWf, Bool.and_eq_true, decide_eq_true_eq] at hw
      have hcnt : xs.length / 256 % 256 * 256 + xs.length % 256 = xs.length := by
        omega
      have hsub := deserializeIntegersAux_roundtrip xs hw.2 0 rest
      simp [serializeGbList, deserializeGbListF, u16Bytes, hcnt, hsub]
    | strings ss =>
      simp only [gbListWf, Bool.and_eq_true, decide_eq_true_eq] at hw
      have hcnt : ss.length / 256 % 256 * 256 + ss.length % 256 = ss.length := by
        omega
      have hsub := deserializeStringValuesAux_roundtrip ss hw.2 0 rest
      simp [serializeGbList, deserializeGbListF, u16Bytes, hcnt, hsub]
    | objects os =>
      simp only [gbListWf, Bool.and_eq_true, decide_eq_true_eq] at hw
      have hlen : (serializeGbList (.objects os)).length =
          (serializeObjList os).length + 3 := by
        simp only [serializeGbList, u16Bytes, List.length_cons,
          List.length_append, List.length_nil]
        omega
      have hcnt : ObjList.length os / 256 % 256 * 256 + ObjList.length os % 256 =
          ObjList.length os := by omega
      have hsub := rt_objList os hw.2 0 f rest (by omega)
      simp [serializeGbList, deserializeGbListF, u16Bytes, hcnt, hsub]

/-- Decoding a serialized well-formed `Vec<Object>` with its element count
and enough fuel recovers it. -/
theorem rt_objList (os : ObjList) (hw : objListWf os = true) :
    ∀ (i fuel : Nat) (rest : List Nat),
      2 * (serializeObjList os).length + 2 ≤ fuel →
      deserializeObjectsAux i fuel (ObjList.length os)
        (serializeObjList os ++ rest) = some (.ok (os, rest)) := by
  intro i fuel rest hfuel
  cases fuel with
  | zero => exact absurd hfuel (by omega)
  | succ f =>
    cases os with
    | nil =>
      simp only [ObjList.length, serializeObjList, List.nil_append,
        deserializeObjectsAux]
    | cons o os' =>
      simp only [objListWf, Bool.and_eq_true, decide_eq_true_eq] at hw
      have hlen : (serializeObjList (.cons o os')).length =
          (serializeFields o).length + (serializeObjList os').length + 1 := by
        simp only [serializeObjList, List.cons_append, List.length_cons,
          List.length_append]
      have hobj : deserializeObjectF f
          ((Fields.length o % 256) ::
            (serializeFields o ++ (serializeObjList os' ++ rest))) =
          some (.ok (o, serializeObjList os' ++ rest)) := by
        cases f with
        | zero => exact absurd hfuel (by omega)
        | succ f2 =>
          have hfl := rt_fields o hw.1.1.1 0 f2 (serializeObjList os' ++ rest)
            (by omega)
          simp [deserializeObjectF,
            Nat.mod_eq_of_lt (show Fields.length o < 256 by omega), hfl,
            collectFields_self o hw.1.2]
      have htail := rt_objList os' hw.2 (i + 1) f rest (by omega)
      simp [ObjList.length, serializeObjList, deserializeObjectsAux, hobj, htail]

/-- Decoding a serialized well-formed pair sequence with its pair count and
enough fuel recovers the raw sequence (duplicates intact). -/
theorem rt_fields (l : Fields) (hw : fieldsWf l = true) :
    ∀ (i fuel : Nat) (rest : List Nat),
      2 * (serializeFields l).length + 2 ≤ fuel →
      deserializeFieldsAux i fuel (Fields.length l)
        (serializeFields l ++ rest) = some (.ok (l, rest)) := by
  intro i fuel rest hfuel
  cases fuel with
  | zero => exact absurd hfuel (by omega)
  | succ f =>
    cases l with
    | nil =>
      simp only [Fields.length, serializeFields, List.nil_append,
        deserializeFieldsAux]
    | cons k v l' =>
      simp only [fieldsWf, Bool.and_eq_true, decide_eq_true_eq] at hw
      have hv1 := serializeFieldValue_length_pos v
      have hlen : (serializeFields (.cons k v l')).length =
          k.length + 1 + (serializeFieldValue v).length +
            (serializeFields l').length := by
        simp only [serializeFields, serializeFieldName_length,
          List.length_append]
      have hpair : deserializePairF f
          (serializeFieldName k ++
            (serializeFieldValue v ++ (serializeFields l' ++ rest))) =
          some (.ok ((k, v), serializeFields l' ++ rest)) := by
        cases f with
        | zero => exact absurd hfuel (by omega)
        | succ f2 =>
          have hname := deserializeFieldName_roundtrip k hw.1.1.1 hw.1.1.2
            (serializeFieldValue v ++ (serializeFields l' ++ rest))
          have hval := rt_fieldValue v hw.1.2 f2 (serializeFields l' ++ rest)
            (by omega)
          simp [deserializePairF, hname, hval]
      have htail := rt_fields l' hw.2 (i + 1) f rest (by omega)
      simp [Fields.length, serializeFields, deserializeFieldsAux, hpair, htail]
end

/-- Fuel-generic decoding of an encoded pair sequence framed as a message:
the decoded body is the last-write-wins fold of the raw sequence (which may
contain duplicate keys), and the trailing bytes are returned unchanged. -/
theorem decode_encoded_body (fc L : Nat) (raw : Fields) (extra : List Nat)
    (h2 : fc = Fields.length raw)
    (h3 : L = 4 + (serializeFields raw).length)
    (h4 : L < 65536)
    (h6 : fieldsWf raw = true)
    (fuel : Nat) (hfuel : 2 * (serializeFields raw).length + 2 ≤ fuel) :
    deserializeMessageF fuel
      (1 :: fc :: (L / 256 % 256) :: (L % 256) ::
        (serializeFields raw ++ extra)) =
      some (.ok (⟨⟨1, fc, L⟩, collectFields raw⟩, extra)) := by
  have hL : L / 256 % 256 * 256 + L % 256 = L := by omega
  have hfl := rt_fields raw h6 0 fuel extra hfuel
  have hpre : ¬((serializeFields raw ++ extra).length + 4 < L) := by
    simp only [List.length_append]
    omega
  subst h2
  simp [deserializeMessageF, deserializeHeader, deserializeHashMapF, hL, hfl,
    hpre, List.length_append]
  rw [if_neg (by omega), if_pos (by omega)]

/-- Fuel-generic form of the message round-trip: decoding the encoding of a
valid message followed by any trailing bytes yields the message and exactly
those trailing bytes. -/
theorem roundtrip_messageF (fc L : Nat) (body : Fields) (extra : List Nat)
    (h2 : fc = Fields.length body)
    (h3 : L = 4 + (serializeFields body).length)
    (h4 : L < 65536)
    (h6 : fieldsWf body = true) (h7 : nodupKeys body = true)
    (fuel : Nat) (hfuel : 2 * (serializeFields body).length + 2 ≤ fuel) :
    deserializeMessageF fuel
      (1 :: fc :: (L / 256 % 256) :: (L % 256) ::
        (serializeFields body ++ extra)) =
      some (.ok (⟨⟨1, fc, L⟩, body⟩, extra)) := by
  have hx := decode_encoded_body fc L body extra h2 h3 h4 h6 fuel hfuel
  rwa [collectFields_self body h7] at hx

/-- Round-trip with trailing data for the top-level entry point: decoding
`encode(m) ++ extra` returns `(m, extra)` for every valid message `m`. -/
theorem roundtrip_message (m : Message) (h : messageValid m)
    (extra : List Nat) :
    Message.deserialize (m.serialize ++ extra) = some (.ok (m, extra)) := by
  obtain ⟨⟨v, fc, L⟩, body⟩ := m
  obtain ⟨h1, h2, h3, h4, h5, h6, h7⟩ := h
  simp only at h1 h2 h3 h4 h5
  subst h1
  have hsl : (Message.serialize ⟨⟨1, fc, L⟩, body⟩).length =
      4 + (serializeFields body).length := by
    simp [Message.serialize, serializeHeader, u16Bytes, List.length_append]
    omega
  rw [hsl] at h3
  have hshape : Message.serialize ⟨⟨1, fc, L⟩, body⟩ ++ extra =
      1 :: fc :: (L / 256 % 256) :: (L % 256) ::
        (serializeFields body ++ extra) := by
    simp [Message.serialize, serializeHeader, u16Bytes]
  simp only [Message.deserialize]
  rw [hshape]
  exact roundtrip_messageF fc L body extra h2 h3 h4 h6 h7 _
    (by simp [List.length_append]; omega)

/-! ### The remainder returned by every decoder is a suffix of its input -/

theorem suffix_deserializeI64 (b : List Nat) (x : Int) (r : List Nat)
    (h : deserializeI64 b = .ok (x, r)) : r <:+ b ∧ r.length + 8 = b.length := by
  rw [deserializeI64.eq_def] at h
  split at h
  · next b0 b1 b2 b3 b4 b5 b6 b7 rest =>
    simp only [Except.ok.injEq, Prod.mk.injEq] at h
    obtain ⟨-, rfl⟩ := h
    exact ⟨⟨[b0, b1, b2, b3, b4, b5, b6, b7], rfl⟩, by simp⟩
  · exact absurd h (by simp)

theorem suffix_deserializeString (b : List Nat) (c : Option Nat)
    (s r : List Nat) (h : deserializeString b c = .ok (s, r)) : r <:+ b := by
  simp only [deserializeString] at h
  split at h
  · simp only [Except.ok.injEq, Prod.mk.injEq] at h
    obtain ⟨-, rfl⟩ := h
    exact List.suffix_refl b
  · split at h
    · split at h
      · simp only [Except.ok.injEq, Prod.mk.injEq] at h
        obtain ⟨-, rfl⟩ := h
        exact List.drop_suffix _ b
      · exact absurd h (by simp)
    · exact absurd h (by simp)

theorem suffix_deserializeFieldName (b : List Nat) (k r : List Nat)
    (h : deserializeFieldName b = .ok (k, r)) : r <:+ b ∧ r.length < b.length := by
  rw [deserializeFieldName.eq_def] at h
  split at h
  · next hd rest =>
    have hs := suffix_deserializeString rest (some hd) k r h
    exact ⟨hs.trans (List.suffix_cons hd rest), by
      have := hs.length_le
      simp only [List.length_cons]
      omega⟩
  · exact absurd h (by simp)

theorem suffix_deserializeStringValue (b : List Nat) (s r : List Nat)
    (h : deserializeStringValue b = .ok (s, r)) : r <:+ b ∧ r.length < b.length := by
  rw [deserializeStringValue.eq_def] at h
  split at h
  · next b0 b1 rest =>
    have hs := suffix_deserializeString rest (some (b0 * 256 + b1)) s r h
    refine ⟨hs.trans ((List.suffix_cons b1 rest).trans (List.suffix_cons b0 _)), ?_⟩
    have := hs.length_le
    simp only [List.length_cons]
    omega
  · exact absurd h (by simp)

theorem suffix_deserializeIntegersAux (count : Nat) :
    ∀ (i : Nat) (b : List Nat) (xs : List Int) (r : List Nat),
      deserializeIntegersAux i count b = .ok (xs, r) → r <:+ b := by
  induction count with
  | zero =>
    intro i b xs r h
    simp only [deserializeIntegersAux, Except.ok.injEq, Prod.mk.injEq] at h
    obtain ⟨-, rfl⟩ := h
    exact List.suffix_refl b
  | succ c ih =>
    intro i b xs r h
    simp only [deserializeIntegersAux] at h
    split at h
    · exact absurd h (by simp)
    · next x rest heq =>
      split at h
      · exact absurd h (by simp)
      · next xs2 rest2 heq2 =>
        simp only [Except.ok.injEq, Prod.mk.injEq] at h
        obtain ⟨-, rfl⟩ := h
        exact (ih (i + 1) rest xs2 rest2 heq2).trans
          (suffix_deserializeI64 b x rest heq).1
  -- Note: the pattern names above refer to the source positions of the
  -- matched constructors.

theorem suffix_deserializeStringValuesAux (count : Nat) :
    ∀ (i : Nat) (b : List Nat) (ss : List (List Nat)) (r : List Nat),
      deserializeStringValuesAux i count b = .ok (ss, r) → r <:+ b := by
  induction count with
  | zero =>
    intro i b ss r h
    simp only [deserializeStringValuesAux, Except.ok.injEq, Prod.mk.injEq] at h
    obtain ⟨-, rfl⟩ := h
    exact List.suffix_refl b
  | succ c ih =>
    intro i b ss r h
    simp only [deserializeStringValuesAux] at h
    split at h
    · exact absurd h (by simp)
    · next s rest heq =>
      split at h
      · exact absurd h (by simp)
      · next ss2 rest2 heq2 =>
        simp only [Except.ok.injEq, Prod.mk.injEq] at h
        obtain ⟨-, rfl⟩ := h
        exact (ih (i + 1) rest ss2 rest2 heq2).trans
          (suffix_deserializeStringValue b s rest heq).1

theorem suffix_deserializeHeader (b : List Nat) (hd : Header) (r : List Nat)
    (h : deserializeHeader b = .ok (hd, r)) : r <:+ b ∧ r.length + 4 = b.length := by
  rw [deserializeHeader.eq_def] at h
  split at h
  · next b0 b1 b2 b3 rest =>
    simp only [Except.ok.injEq, Prod.mk.injEq] at h
    obtain ⟨-, rfl⟩ := h
    exact ⟨⟨[b0, b1, b2, b3], rfl⟩, by simp⟩
  · exact absurd h (by simp)

/-- On success every fuelled decoder returns a suffix of its input buffer;
the self-delimiting ones (field value, list, object, pair) additionally
consume at least one byte. -/
theorem suffix_fueled (fuel : Nat) :
    (∀ b v r, deserializeFieldValueF fuel b = some (.ok (v, r)) →
      r <:+ b ∧ r.length < b.length) ∧
    (∀ b v r, deserializeGbListF fuel b = some (.ok (v, r)) →
      r <:+ b ∧ r.length < b.length) ∧
    (∀ b v r, deserializeObjectF fuel b = some (.ok (v, r)) →
      r <:+ b ∧ r.length < b.length) ∧
    (∀ i c b v r, deserializeObjectsAux i fuel c b = some (.ok (v, r)) →
      r <:+ b) ∧
    (∀ i c b v r, deserializeFieldsAux i fuel c b = some (.ok (v, r)) →
      r <:+ b) ∧
    (∀ b v r, deserializePairF fuel b = some (.ok (v, r)) →
      r <:+ b ∧ r.length < b.length) := by
  induction fuel with
  | zero =>
    refine ⟨fun b v r h => ?_, fun b v r h => ?_, fun b v r h => ?_,
      fun i c b v r h => ?_, fun i c b v r h => ?_, fun b v r h => ?_⟩ <;>
      simp [deserializeFieldValueF, deserializeGbListF, deserializeObjectF,
        deserializeObjectsAux, deserializeFieldsAux, deserializePairF] at h
  | succ f ih =>
    obtain ⟨ihFV, ihGb, ihObj, ihObjs, ihFlds, ihPair⟩ := ih
    refine ⟨fun b v r h => ?_, fun b v r h => ?_, fun b v r h => ?_,
      fun i c b v r h => ?_, fun i c b v r h => ?_, fun b v r h => ?_⟩
    · -- FieldValue
      cases b with
      | nil => simp [deserializeFieldValueF] at h
      | cons t rest =>
        by_cases h1 : t = 1
        · subst h1
          cases hx : deserializeI64 rest with
          | error e => simp [deserializeFieldValueF, hx] at h
          | ok p =>
            obtain ⟨x, r1⟩ := p
            simp [deserializeFieldValueF, hx] at h
            obtain ⟨-, rfl⟩ := h
            have hs := suffix_deserializeI64 rest x r1 hx
            exact ⟨hs.1.trans (List.suffix_cons 1 rest), by
              have h8 := hs.2; simp only [List.length_cons]; omega⟩
        · by_cases h2 : t = 2
          · subst h2
            cases hx : deserializeStringValue rest with
            | error e => simp [deserializeFieldValueF, hx] at h
            | ok p =>
              obtain ⟨s, r1⟩ := p
              simp [deserializeFieldValueF, hx] at h
              obtain ⟨-, rfl⟩ := h
              have hs := suffix_deserializeStringValue rest s r1 hx
              exact ⟨hs.1.trans (List.suffix_cons 2 rest), by
                have h8 := hs.2; simp only [List.length_cons]; omega⟩
          · by_cases h3 : t = 3
            · subst h3
              cases hx : deserializeGbListF f rest with
              | none => simp [deserializeFieldValueF, hx] at h
              | some ex =>
                cases ex with
                | error e => simp [deserializeFieldValueF, hx] at h
                | ok p =>
                  obtain ⟨l, r1⟩ := p
                  simp [deserializeFieldValueF, hx] at h
                  obtain ⟨-, rfl⟩ := h
                  have hs := ihGb rest l r1 hx
                  exact ⟨hs.1.trans (List.suffix_cons 3 rest), by
                    have h8 := hs.2; simp only [List.length_cons]; omega⟩
            · by_cases h4 : t = 4
              · subst h4
                cases hx : deserializeObjectF f rest with
                | none => simp [deserializeFieldValueF, hx] at h
                | some ex =>
                  cases ex with
                  | error e => simp [deserializeFieldValueF, hx] at h
                  | ok p =>
                    obtain ⟨o, r1⟩ := p
                    simp [deserializeFieldValueF, hx] at h
                    obtain ⟨-, rfl⟩ := h
                    have hs := ihObj rest o r1 hx
                    exact ⟨hs.1.trans (List.suffix_cons 4 rest), by
                      have h8 := hs.2; simp only [List.length_cons]; omega⟩
              · simp [deserializeFieldValueF, h1, h2, h3, h4] at h
    · -- GbList
      cases b with
      | nil => simp [deserializeGbListF] at h
      | cons t rest =>
        match rest with
        | [] => simp [deserializeGbListF] at h
        | [c1] => simp [deserializeGbListF] at h
        | c1 :: c2 :: rest2 =>
          by_cases h1 : t = 1
          · subst h1
            cases hx : deserializeIntegersAux 0 (c1 * 256 + c2) rest2 with
            | error e => simp [deserializeGbListF, hx] at h
            | ok p =>
              obtain ⟨xs, r1⟩ := p
              simp [deserializeGbListF, hx] at h
              obtain ⟨-, rfl⟩ := h
              have hs := suffix_deserializeIntegersAux (c1 * 256 + c2) 0 rest2 xs r1 hx
              refine ⟨hs.trans ?_, ?_⟩
              · exact ((List.suffix_cons c2 rest2).trans
                  (List.suffix_cons c1 _)).trans (List.suffix_cons 1 _)
              · have h8 := hs.length_le; simp only [List.length_cons]; omega
          · by_cases h2 : t = 2
            · subst h2
              cases hx : deserializeStringValuesAux 0 (c1 * 256 + c2) rest2 with
              | error e => simp [deserializeGbListF, hx] at h
              | ok p =>
                obtain ⟨ss, r1⟩ := p
                simp [deserializeGbListF, hx] at h
                obtain ⟨-, rfl⟩ := h
                have hs := suffix_deserializeStringValuesAux (c1 * 256 + c2) 0 rest2 ss r1 hx
                refine ⟨hs.trans ?_, ?_⟩
                · exact ((List.suffix_cons c2 rest2).trans
                    (List.suffix_cons c1 _)).trans (List.suffix_cons 2 _)
                · have h8 := hs.length_le; simp only [List.length_cons]; omega
            · by_cases h4 : t = 4
              · subst h4
                cases hx : deserializeObjectsAux 0 f (c1 * 256 + c2) rest2 with
                | none => simp [deserializeGbListF, hx] at h
                | some ex =>
                  cases ex with
                  | error e => simp [deserializeGbListF, hx] at h
                  | ok p =>
                    obtain ⟨os, r1⟩ := p
                    simp [deserializeGbListF, hx] at h
                    obtain ⟨-, rfl⟩ := h
                    have hs := ihObjs 0 (c1 * 256 + c2) rest2 os r1 hx
                    refine ⟨hs.trans ?_, ?_⟩
                    · exact ((List.suffix_cons c2 rest2).trans
                        (List.suffix_cons c1 _)).trans (List.suffix_cons 4 _)
                    · have h8 := hs.length_le; simp only [List.length_cons]; omega
              · simp [deserializeGbListF, h1, h2, h4] at h
    · -- Object
      cases b with
      | nil => simp [deserializeObjectF] at h
      | cons c rest =>
        cases hx : deserializeFieldsAux 0 f c rest with
        | none => simp [deserializeObjectF, hx] at h
        | some ex =>
          cases ex with
          | error e => simp [deserializeObjectF, hx] at h
          | ok p =>
            obtain ⟨l, r1⟩ := p
            simp [deserializeObjectF, hx] at h
            obtain ⟨-, rfl⟩ := h
            have hs := ihFlds 0 c rest l r1 hx
            exact ⟨hs.trans (List.suffix_cons c rest), by
              have h8 := hs.length_le; simp only [List.length_cons]; omega⟩
    · -- Vec<Object>
      cases c with
      | zero =>
        simp only [deserializeObjectsAux, Option.some.injEq, Except.ok.injEq,
          Prod.mk.injEq] at h
        obtain ⟨-, rfl⟩ := h
        exact List.suffix_refl b
      | succ c' =>
        cases hx : deserializeObjectF f b with
        | none => simp [deserializeObjectsAux, hx] at h
        | some ex =>
          cases ex with
          | error e => simp [deserializeObjectsAux, hx] at h
          | ok p =>
            obtain ⟨o, r1⟩ := p
            cases hy : deserializeObjectsAux (i + 1) f c' r1 with
            | none => simp [deserializeObjectsAux, hx, hy] at h
            | some ex2 =>
              cases ex2 with
              | error e => simp [deserializeObjectsAux, hx, hy] at h
              | ok p2 =>
                obtain ⟨os, r2⟩ := p2
                simp [deserializeObjectsAux, hx, hy] at h
                obtain ⟨-, rfl⟩ := h
                exact (ihObjs (i + 1) c' r1 os r2 hy).trans (ihObj b o r1 hx).1
    · -- Vec<(FieldName, FieldValue)>
      cases c with
      | zero =>
        simp only [deserializeFieldsAux, Option.some.injEq, Except.ok.injEq,
          Prod.mk.injEq] at h
        obtain ⟨-, rfl⟩ := h
        exact List.suffix_refl b
      | succ c' =>
        cases hx : deserializePairF f b with
        | none => simp [deserializeFieldsAux, hx] at h
        | some ex =>
          cases ex with
          | error e => simp [deserializeFieldsAux, hx] at h
          | ok p =>
            obtain ⟨kv, r1⟩ := p
            cases hy : deserializeFieldsAux (i + 1) f c' r1 with
            | none => simp [deserializeFieldsAux, hx, hy] at h
            | some ex2 =>
              cases ex2 with
              | error e => simp [deserializeFieldsAux, hx, hy] at h
              | ok p2 =>
                obtain ⟨l, r2⟩ := p2
                obtain ⟨k, v2⟩ := kv
                simp [deserializeFieldsAux, hx, hy] at h
                obtain ⟨-, rfl⟩ := h
                exact (ihFlds (i + 1) c' r1 l r2 hy).trans (ihPair b (k, v2) r1 hx).1
    · -- Pair
      cases hx : deserializeFieldName b with
      | error e => simp [deserializePairF, hx] at h
      | ok p =>
        obtain ⟨k, r1⟩ := p
        cases hy : deserializeFieldValueF f r1 with
        | none => simp [deserializePairF, hx, hy] at h
        | some ex =>
          cases ex with
          | error e => simp [deserializePairF, hx, hy] at h
          | ok p2 =>
            obtain ⟨v2, r2⟩ := p2
            simp [deserializePairF, hx, hy] at h
            obtain ⟨-, rfl⟩ := h
            have hn := suffix_deserializeFieldName b k r1 hx
            have hv := ihFV r1 v2 r2 hy
            exact ⟨hv.1.trans hn.1, by have := hn.2; have := hv.2; omega⟩

/-- Fuel monotonicity: a decoder that finishes (with a value or an error)
at some fuel returns the same result with more fuel. -/
theorem mono_fueled (fuel : Nat) :
    (∀ b rr, deserializeFieldValueF fuel b = some rr →
      deserializeFieldValueF (fuel + 1) b = some rr) ∧
    (∀ b rr, deserializeGbListF fuel b = some rr →
      deserializeGbListF (fuel + 1) b = some rr) ∧
    (∀ b rr, deserializeObjectF fuel b = some rr →
      deserializeObjectF (fuel + 1) b = some rr) ∧
    (∀ i c b rr, deserializeObjectsAux i fuel c b = some rr →
      deserializeObjectsAux i (fuel + 1) c b = some rr) ∧
    (∀ i c b rr, deserializeFieldsAux i fuel c b = some rr →
      deserializeFieldsAux i (fuel + 1) c b = some rr) ∧
    (∀ b rr, deserializePairF fuel b = some rr →
      deserializePairF (fuel + 1) b = some rr) := by
  induction fuel with
  | zero =>
    refine ⟨fun b rr h => ?_, fun b rr h => ?_, fun b rr h => ?_,
      fun i c b rr h => ?_, fun i c b rr h => ?_, fun b rr h => ?_⟩ <;>
      simp [deserializeFieldValueF, deserializeGbListF, deserializeObjectF,
        deserializeObjectsAux, deserializeFieldsAux, deserializePairF] at h
  | succ f ih =>
    obtain ⟨ihFV, ihGb, ihObj, ihObjs, ihFlds, ihPair⟩ := ih
    refine ⟨fun b rr h => ?_, fun b rr h => ?_, fun b rr h => ?_,
      fun i c b rr h => ?_, fun i c b rr h => ?_, fun b rr h => ?_⟩
    · -- FieldValue
      cases b with
      | nil => simp [deserializeFieldValueF] at h ⊢; exact h
      | cons t rest =>
        by_cases h1 : t = 1
        · subst h1; simp [deserializeFieldValueF] at h ⊢; exact h
        · by_cases h2 : t = 2
          · subst h2; simp [deserializeFieldValueF] at h ⊢; exact h
          · by_cases h3 : t = 3
            · subst h3
              cases hx : deserializeGbListF f rest with
              | none => simp [deserializeFieldValueF, hx] at h
              | some ex =>
                have hx2 := ihGb rest ex hx
                cases ex with
                | error e =>
                  simp [deserializeFieldValueF, hx] at h
                  simp [deserializeFieldValueF, hx2, h]
                | ok p =>
                  obtain ⟨l, r1⟩ := p
                  simp [deserializeFieldValueF, hx] at h
                  simp [deserializeFieldValueF, hx2, h]
            · by_cases h4 : t = 4
              · subst h4
                cases hx : deserializeObjectF f rest with
                | none => simp [deserializeFieldValueF, hx] at h
                | some ex =>
                  have hx2 := ihObj rest ex hx
                  cases ex with
                  | error e =>
                    simp [deserializeFieldValueF, hx] at h
                    simp [deserializeFieldValueF, hx2, h]
                  | ok p =>
                    obtain ⟨o, r1⟩ := p
                    simp [deserializeFieldValueF, hx] at h
                    simp [deserializeFieldValueF, hx2, h]
              · simp [deserializeFieldValueF, h1, h2, h3, h4] at h ⊢; exact h
    · -- GbList
      cases b with
      | nil => simp [deserializeGbListF] at h ⊢; exact h
      | cons t rest =>
        match rest with
        | [] => simp [deserializeGbListF] at h ⊢; exact h
        | [c1] => simp [deserializeGbListF] at h ⊢; exact h
        | c1 :: c2 :: rest2 =>
          by_cases h1 : t = 1
          · subst h1; simp [deserializeGbListF] at h ⊢; exact h
          · by_cases h2 : t = 2
            · subst h2; simp [deserializeGbListF] at h ⊢; exact h
            · by_cases h4 : t = 4
              · subst h4
                cases hx : deserializeObjectsAux 0 f (c1 * 256 + c2) rest2 with
                | none => simp [deserializeGbListF, hx] at h
                | some ex =>
                  have hx2 := ihObjs 0 (c1 * 256 + c2) rest2 ex hx
                  cases ex with
                  | error e =>
                    simp [deserializeGbListF, hx] at h
                    simp [deserializeGbListF, hx2, h]
                  | ok p =>
                    obtain ⟨os, r1⟩ := p
                    simp [deserializeGbListF, hx] at h
                    simp [deserializeGbListF, hx2, h]
              · simp [deserializeGbListF, h1, h2, h4] at h ⊢; exact h
    · -- Object
      cases b with
      | nil => simp [deserializeObjectF] at h ⊢; exact h
      | cons c rest =>
        cases hx : deserializeFieldsAux 0 f c rest with
        | none => simp [deserializeObjectF, hx] at h
        | some ex =>
          have hx2 := ihFlds 0 c rest ex hx
          cases ex with
          | error e =>
            simp [deserializeObjectF, hx] at h
            subst h
            simp [deserializeObjectF, hx2]
          | ok p =>
            obtain ⟨l, r1⟩ := p
            simp [deserializeObjectF, hx] at h
            simp [deserializeObjectF, hx2, h]
    · -- Vec<Object>
      cases c with
      | zero => simp [deserializeObjectsAux] at h ⊢; exact h
      | succ c' =>
        cases hx : deserializeObjectF f b with
        | none => simp [deserializeObjectsAux, hx] at h
        | some ex =>
          have hx2 := ihObj b ex hx
          cases ex with
          | error e =>
            simp [deserializeObjectsAux, hx] at h
            simp [deserializeObjectsAux, hx2, h]
          | ok p =>
            obtain ⟨o, r1⟩ := p
            cases hy : deserializeObjectsAux (i + 1) f c' r1 with
            | none => simp [deserializeObjectsAux, hx, hy] at h
            | some ex2 =>
              have hy2 := ihObjs (i + 1) c' r1 ex2 hy
              cases ex2 with
              | error e =>
                simp [deserializeObjectsAux, hx, hy] at h
                subst h
                simp [deserializeObjectsAux, hx2, hy2]
              | ok p2 =>
                obtain ⟨os, r2⟩ := p2
                simp [deserializeObjectsAux, hx, hy] at h
                simp [deserializeObjectsAux, hx2, hy2, h]
    · -- Vec<(FieldName, FieldValue)>
      cases c with
      | zero => simp [deserializeFieldsAux] at h ⊢; exact h
      | succ c' =>
        cases hx : deserializePairF f b with
        | none => simp [deserializeFieldsAux, hx] at h
        | some ex =>
          have hx2 := ihPair b ex hx
          cases ex with
          | error e =>
            simp [deserializeFieldsAux, hx] at h
            simp [deserializeFieldsAux, hx2, h]
          | ok p =>
            obtain ⟨kv, r1⟩ := p
            obtain ⟨k, v2⟩ := kv
            cases hy : deserializeFieldsAux (i + 1) f c' r1 with
            | none => simp [deserializeFieldsAux, hx, hy] at h
            | some ex2 =>
              have hy2 := ihFlds (i + 1) c' r1 ex2 hy
              cases ex2 with
              | error e =>
                simp [deserializeFieldsAux, hx, hy] at h
                subst h
                simp [deserializeFieldsAux, hx2, hy2]
              | ok p2 =>
                obtain ⟨l, r2⟩ := p2
                simp [deserializeFieldsAux, hx, hy] at h
                simp [deserializeFieldsAux, hx2, hy2, h]
    · -- Pair
      cases hx : deserializeFieldName b with
      | error e => simp [deserializePairF, hx] at h ⊢; exact h
      | ok p =>
        obtain ⟨k, r1⟩ := p
        cases hy : deserializeFieldValueF f r1 with
        | none => simp [deserializePairF, hx, hy] at h
        | some ex =>
          have hy2 := ihFV r1 ex hy
          cases ex with
          | error e =>
            simp [deserializePairF, hx, hy] at h
            simp [deserializePairF, hx, hy2, h]
          | ok p2 =>
            obtain ⟨v2, r2⟩ := p2
            simp [deserializePairF, hx, hy] at h
            simp [deserializePairF, hx, hy2, h]

/-- Chained fuel monotonicity for any fuelled function with the one-step
property. -/
theorem option_mono_le {α β : Type _} (d : Nat → α → Option β)
    (step : ∀ f a r, d f a = some r → d (f + 1) a = some r) :
    ∀ (f g : Nat) (a : α) (r : β), f ≤ g → d f a = some r → d g a = some r := by
  intro f g a r hle h
  induction hle with
  | refl => exact h
  | step _ ih => exact step _ _ _ ih

/-- Adequacy of the fuel budget: with fuel at least roughly twice the
buffer length, no decoder runs out of fuel — every recursive descent into
the buffer consumes bytes fast enough. -/
theorem adequacy_fueled (fuel : Nat) :
    (∀ b, 2 * b.length + 1 ≤ fuel → deserializeFieldValueF fuel b ≠ none) ∧
    (∀ b, 2 * b.length + 1 ≤ fuel → deserializeGbListF fuel b ≠ none) ∧
    (∀ b, 2 * b.length + 1 ≤ fuel → deserializeObjectF fuel b ≠ none) ∧
    (∀ i c b, 2 * b.length + 2 ≤ fuel →
      deserializeObjectsAux i fuel c b ≠ none) ∧
    (∀ i c b, 2 * b.length + 2 ≤ fuel →
      deserializeFieldsAux i fuel c b ≠ none) ∧
    (∀ b, 2 * b.length + 1 ≤ fuel → deserializePairF fuel b ≠ none) := by
  induction fuel with
  | zero =>
    exact ⟨fun b hb => absurd hb (by omega), fun b hb => absurd hb (by omega),
      fun b hb => absurd hb (by omega), fun i c b hb => absurd hb (by omega),
      fun i c b hb => absurd hb (by omega), fun b hb => absurd hb (by omega)⟩
  | succ f ih =>
    obtain ⟨ihFV, ihGb, ihObj, ihObjs, ihFlds, ihPair⟩ := ih
    refine ⟨fun b hb => ?_, fun b hb => ?_, fun b hb => ?_,
      fun i c b hb => ?_, fun i c b hb => ?_, fun b hb => ?_⟩
    · -- FieldValue
      cases b with
      | nil => simp [deserializeFieldValueF]
      | cons t rest =>
        simp only [List.length_cons] at hb
        by_cases h1 : t = 1
        · subst h1
          cases hx : deserializeI64 rest with
          | error e => simp [deserializeFieldValueF, hx]
          | ok p => obtain ⟨x, r1⟩ := p; simp [deserializeFieldValueF, hx]
        · by_cases h2 : t = 2
          · subst h2
            cases hx : deserializeStringValue rest with
            | error e => simp [deserializeFieldValueF, hx]
            | ok p => obtain ⟨s, r1⟩ := p; simp [deserializeFieldValueF, hx]
          · by_cases h3 : t = 3
            · subst h3
              cases hx : deserializeGbListF f rest with
              | none => exact absurd hx (ihGb rest (by omega))
              | some ex =>
                cases ex with
                | error e => simp [deserializeFieldValueF, hx]
                | ok p =>
                  obtain ⟨l, r1⟩ := p
                  simp [deserializeFieldValueF, hx]
            · by_cases h4 : t = 4
              · subst h4
                cases hx : deserializeObjectF f rest with
                | none => exact absurd hx (ihObj rest (by omega))
                | some ex =>
                  cases ex with
                  | error e => simp [deserializeFieldValueF, hx]
                  | ok p =>
                    obtain ⟨o, r1⟩ := p
                    simp [deserializeFieldValueF, hx]
              · simp [deserializeFieldValueF, h1, h2, h3, h4]
    · -- GbList
      cases b with
      | nil => simp [deserializeGbListF]
      | cons t rest =>
        rcases rest with - | ⟨c1, rest1⟩
        · simp [deserializeGbListF]
        rcases rest1 with - | ⟨c2, rest2⟩
        · simp [deserializeGbListF]
        simp only [List.length_cons] at hb
        by_cases h1 : t = 1
        · subst h1
          cases hx : deserializeIntegersAux 0 (c1 * 256 + c2) rest2 with
          | error e => simp [deserializeGbListF, hx]
          | ok p => obtain ⟨xs, r1⟩ := p; simp [deserializeGbListF, hx]
        · by_cases h2 : t = 2
          · subst h2
            cases hx : deserializeStringValuesAux 0 (c1 * 256 + c2) rest2 with
            | error e => simp [deserializeGbListF, hx]
            | ok p => obtain ⟨ss, r1⟩ := p; simp [deserializeGbListF, hx]
          · by_cases h4 : t = 4
            · subst h4
              cases hx : deserializeObjectsAux 0 f (c1 * 256 + c2) rest2 with
              | none => exact absurd hx (ihObjs 0 (c1 * 256 + c2) rest2 (by omega))
              | some ex =>
                cases ex with
                | error e => simp [deserializeGbListF, hx]
                | ok p => obtain ⟨os, r1⟩ := p; simp [deserializeGbListF, hx]
            · simp [deserializeGbListF, h1, h2, h4]
    · -- Object
      cases b with
      | nil => simp [deserializeObjectF]
      | cons c rest =>
        simp only [List.length_cons] at hb
        cases hx : deserializeFieldsAux 0 f c rest with
        | none => exact absurd hx (ihFlds 0 c rest (by omega))
        | some ex =>
          cases ex with
          | error e => simp [deserializeObjectF, hx]
          | ok p => obtain ⟨l, r1⟩ := p; simp [deserializeObjectF, hx]
    · -- Vec<Object>
      cases c with
      | zero => simp [deserializeObjectsAux]
      | succ c' =>
        cases hx : deserializeObjectF f b with
        | none => exact absurd hx (ihObj b (by omega))
        | some ex =>
          cases ex with
          | error e => simp [deserializeObjectsAux, hx]
          | ok p =>
            obtain ⟨o, r1⟩ := p
            have hs := ((suffix_fueled f).2.2.1 b o r1 hx).2
            cases hy : deserializeObjectsAux (i + 1) f c' r1 with
            | none => exact absurd hy (ihObjs (i + 1) c' r1 (by omega))
            | some ex2 =>
              cases ex2 with
              | error e => simp [deserializeObjectsAux, hx, hy]
              | ok p2 =>
                obtain ⟨os, r2⟩ := p2
                simp [deserializeObjectsAux, hx, hy]
    · -- Vec<(FieldName, FieldValue)>
      cases c with
      | zero => simp [deserializeFieldsAux]
      | succ c' =>
        cases hx : deserializePairF f b with
        | none => exact absurd hx (ihPair b (by omega))
        | some ex =>
          cases ex with
          | error e => simp [deserializeFieldsAux, hx]
          | ok p =>
            obtain ⟨kv, r1⟩ := p
            obtain ⟨k, v2⟩ := kv
            have hs := ((suffix_fueled f).2.2.2.2.2 b (k, v2) r1 hx).2
            cases hy : deserializeFieldsAux (i + 1) f c' r1 with
            | none => exact absurd hy (ihFlds (i + 1) c' r1 (by omega))
            | some ex2 =>
              cases ex2 with
              | error e => simp [deserializeFieldsAux, hx, hy]
              | ok p2 =>
                obtain ⟨l, r2⟩ := p2
                simp [deserializeFieldsAux, hx, hy]
    · -- Pair
      cases hx : deserializeFieldName b with
      | error e => simp [deserializePairF, hx]
      | ok p =>
        obtain ⟨k, r1⟩ := p
        have hs := (suffix_deserializeFieldName b k r1 hx).2
        cases hy : deserializeFieldValueF f r1 with
        | none => exact absurd hy (ihFV r1 (by omega))
        | some ex =>
          cases ex with
          | error e => simp [deserializePairF, hx, hy]
          | ok p2 => obtain ⟨v2, r2⟩ := p2; simp [deserializePairF, hx, hy]

/-- Fuel monotonicity for the HashMap decoder. -/
theorem mono_hashMapF (fuel c : Nat) (b : List Nat)
    (rr : Except Err (Fields × List Nat))
    (h : deserializeHashMapF fuel c b = some rr) :
    deserializeHashMapF (fuel + 1) c b = some rr := by
  unfold deserializeHashMapF at h ⊢
  cases hx : deserializeFieldsAux 0 fuel c b with
  | none => rw [hx] at h; simp at h
  | some ex =>
    rw [(mono_fueled fuel).2.2.2.2.1 0 c b ex hx]
    rw [hx] at h
    exact h

/-- Fuel monotonicity for the message decoder. -/
theorem mono_messageF (fuel : Nat) (b : List Nat)
    (rr : Except Err (Message × List Nat))
    (h : deserializeMessageF fuel b = some rr) :
    deserializeMessageF (fuel + 1) b = some rr := by
  unfold deserializeMessageF at h ⊢
  cases hh : deserializeHeader b with
  | error e => rw [hh] at h; exact h
  | ok p =>
    obtain ⟨hd, rest⟩ := p
    rw [hh] at h
    simp only [] at h ⊢
    by_cases hv : hd.version ≠ 1
    · simp only [if_pos hv] at h ⊢; exact h
    · simp only [if_neg hv] at h ⊢
      by_cases hbs : rest.length + 4 < hd.length
      · simp only [if_pos hbs] at h ⊢; exact h
      · simp only [if_neg hbs] at h ⊢
        cases hx : deserializeHashMapF fuel hd.fieldCount rest with
        | none => rw [hx] at h; simp at h
        | some ex =>
          rw [mono_hashMapF fuel _ _ ex hx]
          rw [hx] at h
          exact h

/-- The message decoder never runs out of fuel at the standard budget. -/
theorem adequacy_messageF (fuel : Nat) (b : List Nat)
    (hb : 2 * b.length + 2 ≤ fuel) : deserializeMessageF fuel b ≠ none := by
  unfold deserializeMessageF
  cases hh : deserializeHeader b with
  | error e => simp
  | ok p =>
    obtain ⟨hd, rest⟩ := p
    have hlen := (suffix_deserializeHeader b hd rest hh).2
    by_cases hv : hd.version ≠ 1
    · simp [hv]
    · by_cases hbs : rest.length + 4 < hd.length
      · simp [hv, hbs]
      · cases hx : deserializeHashMapF fuel hd.fieldCount rest with
        | none =>
          exfalso
          have hFlds : deserializeFieldsAux 0 fuel hd.fieldCount rest = none := by
            unfold deserializeHashMapF at hx
            cases hy : deserializeFieldsAux 0 fuel hd.fieldCount rest with
            | none => rfl
            | some ex =>
              cases ex with
              | error e => rw [hy] at hx; simp at hx
              | ok p2 =>
                obtain ⟨l, r⟩ := p2
                rw [hy] at hx
                simp at hx
          exact (adequacy_fueled fuel).2.2.2.2.1 0 hd.fieldCount rest
            (by omega) hFlds
        | some ex =>
          cases ex with
          | error e => simp [hv, hbs, hx]
          | ok p2 =>
            obtain ⟨body, r2⟩ := p2
            simp only [if_neg hv, if_neg hbs, hx]
            split <;> simp

/-- The HashMap decoder returns a suffix of its input on success. -/
theorem suffix_hashMapF (fuel c : Nat) (b : List Nat) (body : Fields)
    (r : List Nat) (h : deserializeHashMapF fuel c b = some (.ok (body, r))) :
    r <:+ b := by
  unfold deserializeHashMapF at h
  cases hy : deserializeFieldsAux 0 fuel c b with
  | none => rw [hy] at h; simp at h
  | some ex =>
    rw [hy] at h
    cases ex with
    | error e => simp at h
    | ok p =>
      obtain ⟨l, r3⟩ := p
      simp only [Option.some.injEq, Except.ok.injEq, Prod.mk.injEq] at h
      obtain ⟨-, rfl⟩ := h
      exact (suffix_fueled fuel).2.2.2.2.1 0 c b l r3 hy

/-- The message decoder returns a suffix of its input on success. -/
theorem suffix_message (fuel : Nat) (b : List Nat) (m : Message)
    (r : List Nat) (h : deserializeMessageF fuel b = some (.ok (m, r))) :
    r <:+ b := by
  unfold deserializeMessageF at h
  cases hh : deserializeHeader b with
  | error e => rw [hh] at h; simp at h
  | ok p =>
    obtain ⟨hd, rest⟩ := p
    rw [hh] at h
    simp only [] at h
    have hhd := (suffix_deserializeHeader b hd rest hh).1
    by_cases hv : hd.version ≠ 1
    · simp [hv] at h
    · simp only [if_neg hv] at h
      by_cases hbs : rest.length + 4 < hd.length
      · simp [hbs] at h
      · simp only [if_neg hbs] at h
        cases hx : deserializeHashMapF fuel hd.fieldCount rest with
        | none => rw [hx] at h; simp at h
        | some ex =>
          rw [hx] at h
          cases ex with
          | error e => simp at h
          | ok p2 =>
            obtain ⟨body, r2⟩ := p2
            have hsfx : r2 <:+ rest := suffix_hashMapF fuel _ rest body r2 hx
            simp only [] at h
            split at h
            · simp at h
            · simp only [Option.some.injEq, Except.ok.injEq, Prod.mk.injEq] at h
              obtain ⟨-, rfl⟩ := h
              exact hsfx.trans hhd

/-! ### Claim theorems -/

/-- C1 (counterexample): the round-trip claim fails as stated. The message
`{version: 0, field_count: 0, length: 4}` with an empty body satisfies every
size limit and both stated Message invariants (field_count = number of
entries, length = serialized byte length), yet decoding its encoding fails
with `UnsupportedVersion` instead of returning the message: the claim's
invariant list omits `header.version = 0x01`. -/
theorem c1_roundtrip_counterexample :
    (Message.mk ⟨0, 0, 4⟩ .nil).header.fieldCount =
      Fields.length (Message.mk ⟨0, 0, 4⟩ .nil).body ∧
    (Message.mk ⟨0, 0, 4⟩ .nil).header.length =
      (Message.mk ⟨0, 0, 4⟩ .nil).serialize.length ∧
    fieldsWf (Message.mk ⟨0, 0, 4⟩ .nil).body = true ∧
    nodupKeys (Message.mk ⟨0, 0, 4⟩ .nil).body = true ∧
    Message.deserialize (Message.mk ⟨0, 0, 4⟩ .nil).serialize =
      some (.error (.unsupportedVersion 0)) :=
  ⟨rfl, rfl, rfl, rfl, rfl⟩

/-- C1 (amended): for every Message within the size limits whose header
satisfies the Message invariants and additionally has version `0x01`,
deserialization of its serialization returns the message with an empty
remaining buffer. -/
theorem c1_roundtrip_amended (m : Message) (h : messageValid m) :
    Message.deserialize m.serialize = some (.ok (m, [])) := by
  have hrt := roundtrip_message m h []
  simpa using hrt

/-- C1 (witness): the amended round-trip at a concrete valid message. -/
theorem c1_roundtrip_amended_witness :
    Message.deserialize (Message.serialize ⟨⟨1, 0, 4⟩, .nil⟩) =
      some (.ok (⟨⟨1, 0, 4⟩, .nil⟩, [])) :=
  c1_roundtrip_amended ⟨⟨1, 0, 4⟩, .nil⟩ (by decide)

/-- C2: encoding the flat record `{user_id: 1001, name: "Alice",
scores: [100, 200, 300]}` with field_count 3 (in that field order) produces
exactly the 69-byte sequence of the spec, and decoding those 69 bytes
reproduces the record with zero trailing bytes. -/
theorem c2_flat_record_scenario :
    msgFlat.serialize = flatBytes ∧
    Message.deserialize flatBytes = some (.ok (msgFlat, [])) :=
  ⟨rfl, rfl⟩

/-- C3 (counterexample): the version-gate claim fails as stated for buffers
shorter than the 4-byte header: the one-byte buffer `[0x00]` has a first
byte different from `0x01`, yet deserialization fails with the truncated
header error, not with `UnsupportedVersion`. -/
theorem c3_version_gate_counterexample :
    Message.deserialize [0] = some (.error .expectedHeader) ∧
    Err.isUnsupportedVersion .expectedHeader = false :=
  ⟨rfl, rfl⟩

/-- C3 (amended): every buffer of length at least 4 whose first byte is not
`0x01` fails with `UnsupportedVersion` naming that byte, regardless of the
rest of the buffer's content. -/
theorem c3_version_gate_amended (b0 b1 b2 b3 : Nat) (rest : List Nat)
    (h : b0 ≠ 1) :
    Message.deserialize (b0 :: b1 :: b2 :: b3 :: rest) =
      some (.error (.unsupportedVersion b0)) := by
  simp [Message.deserialize, deserializeMessageF, deserializeHeader, h]

/-- C3 (witness): the amended version gate at a concrete buffer. -/
theorem c3_version_gate_witness :
    Message.deserialize [2, 7, 7, 7, 7] =
      some (.error (.unsupportedVersion 2)) :=
  c3_version_gate_amended 2 7 7 7 [7] (by decide)

/-- C6 (counterexample): the tag-exhaustiveness claim fails as stated for
List decoding: the buffer `[0x03]` presents the invalid element tag `0x03`,
but List deserialization fails with the truncated-count error (the 2-byte
count is read before the tag is inspected), not with `UnknownTypeTag`. -/
theorem c6_tag_exhaustiveness_counterexample :
    deserializeGbListF 5 [3] = some (.error .expectedU16Count) ∧
    Err.isUnknownTypeTag .expectedU16Count = false :=
  ⟨rfl, rfl⟩

/-- C6 (amended): a FieldValue type-tag byte outside {1, 2, 3, 4} always
fails FieldValue deserialization with `UnknownTypeTag`; a List element-tag
byte outside {1, 2, 4} fails List deserialization with `UnknownTypeTag`
provided the buffer holds the tag byte and the 2-byte element count. -/
theorem c6_tag_exhaustiveness_amended :
    (∀ (fuel t : Nat) (rest : List Nat), 1 ≤ fuel →
      t ≠ 1 → t ≠ 2 → t ≠ 3 → t ≠ 4 →
      deserializeFieldValueF fuel (t :: rest) =
        some (.error (.unknownFieldType t))) ∧
    (∀ (fuel t c1 c2 : Nat) (rest : List Nat), 1 ≤ fuel →
      t ≠ 1 → t ≠ 2 → t ≠ 4 →
      deserializeGbListF fuel (t :: c1 :: c2 :: rest) =
        some (.error (.unknownListType t))) := by
  constructor
  · intro fuel t rest hf h1 h2 h3 h4
    cases fuel with
    | zero => exact absurd hf (by omega)
    | succ f => simp [deserializeFieldValueF, h1, h2, h3, h4]
  · intro fuel t c1 c2 rest hf h1 h2 h4
    cases fuel with
    | zero => exact absurd hf (by omega)
    | succ f => simp [deserializeGbListF, h1, h2, h4]

/-- C6 (witness): the amended tag exhaustiveness at concrete buffers,
including the List-element tag 3 (List itself). -/
theorem c6_tag_exhaustiveness_witness :
    deserializeFieldValueF 5 [7] = some (.error (.unknownFieldType 7)) ∧
    deserializeGbListF 5 [3, 0, 0] = some (.error (.unknownListType 3)) :=
  ⟨c6_tag_exhaustiveness_amended.1 5 7 [] (by decide) (by decide) (by decide)
      (by decide) (by decide),
   c6_tag_exhaustiveness_amended.2 5 3 0 0 [] (by decide) (by decide)
      (by decide) (by decide)⟩

/-- C7 (counterexample): the trailing-data claim fails as stated. The
message `{version: 2, field_count: 0, length: 4}` with an empty body meets
the size limits and both stated Message invariants, but decoding its
encoding followed by an extra byte fails with `UnsupportedVersion` instead
of returning the message with the extra byte: version `0x01` is needed. -/
theorem c7_trailing_data_counterexample :
    (Message.mk ⟨2, 0, 4⟩ .nil).header.fieldCount =
      Fields.length (Message.mk ⟨2, 0, 4⟩ .nil).body ∧
    (Message.mk ⟨2, 0, 4⟩ .nil).header.length =
      (Message.mk ⟨2, 0, 4⟩ .nil).serialize.length ∧
    Message.deserialize ((Message.mk ⟨2, 0, 4⟩ .nil).serialize ++ [9]) =
      some (.error (.unsupportedVersion 2)) :=
  ⟨rfl, rfl, rfl⟩

/-- C7 (amended): for every Message within the size limits satisfying the
Message invariants and with version `0x01`, and for every byte sequence
`extra`, deserializing the serialization of the message concatenated with
`extra` returns the message together with exactly `extra` unconsumed. -/
theorem c7_trailing_data_amended (m : Message) (h : messageValid m)
    (extra : List Nat) :
    Message.deserialize (m.serialize ++ extra) = some (.ok (m, extra)) :=
  roundtrip_message m h extra

/-- C7 (witness): the amended trailing-data property at a concrete valid
message and concrete extra bytes. -/
theorem c7_trailing_data_amended_witness :
    Message.deserialize (Message.serialize ⟨⟨1, 0, 4⟩, .nil⟩ ++ [9, 8]) =
      some (.ok (⟨⟨1, 0, 4⟩, .nil⟩, [9, 8])) :=
  c7_trailing_data_amended ⟨⟨1, 0, 4⟩, .nil⟩ (by decide) [9, 8]

/-- C9: every decoder of the codec — i64, raw string, StringValue,
FieldName, the integer/string/object sequences, pairs, the pair-sequence,
the HashMap fold decoder, Header, FieldValue, List, Object and Message —
returns, on success, a remaining buffer that is a suffix of its input, so
the consumed bytes are exactly a prefix and the consumed count is
non-negative. -/
theorem c9_remainder_suffix :
    (∀ b x r, deserializeI64 b = .ok (x, r) → r <:+ b) ∧
    (∀ b c s r, deserializeString b c = .ok (s, r) → r <:+ b) ∧
    (∀ b s r, deserializeStringValue b = .ok (s, r) → r <:+ b) ∧
    (∀ b k r, deserializeFieldName b = .ok (k, r) → r <:+ b) ∧
    (∀ i c b xs r, deserializeIntegersAux i c b = .ok (xs, r) → r <:+ b) ∧
    (∀ i c b ss r, deserializeStringValuesAux i c b = .ok (ss, r) → r <:+ b) ∧
    (∀ b hd r, deserializeHeader b = .ok (hd, r) → r <:+ b) ∧
    (∀ fuel b v r, deserializeFieldValueF fuel b = some (.ok (v, r)) →
      r <:+ b) ∧
    (∀ fuel b l r, deserializeGbListF fuel b = some (.ok (l, r)) → r <:+ b) ∧
    (∀ fuel b o r, deserializeObjectF fuel b = some (.ok (o, r)) → r <:+ b) ∧
    (∀ fuel i c b os r, deserializeObjectsAux i fuel c b = some (.ok (os, r)) →
      r <:+ b) ∧
    (∀ fuel i c b l r, deserializeFieldsAux i fuel c b = some (.ok (l, r)) →
      r <:+ b) ∧
    (∀ fuel b kv r, deserializePairF fuel b = some (.ok (kv, r)) → r <:+ b) ∧
    (∀ fuel c b body r, deserializeHashMapF fuel c b = some (.ok (body, r)) →
      r <:+ b) ∧
    (∀ b m r, Message.deserialize b = some (.ok (m, r)) →
      r <:+ b ∧ r.length ≤ b.length) := by
  refine ⟨fun b x r h => (suffix_deserializeI64 b x r h).1,
    fun b c s r h => suffix_deserializeString b c s r h,
    fun b s r h => (suffix_deserializeStringValue b s r h).1,
    fun b k r h => (suffix_deserializeFieldName b k r h).1,
    fun i c b xs r h => suffix_deserializeIntegersAux c i b xs r h,
    fun i c b ss r h => suffix_deserializeStringValuesAux c i b ss r h,
    fun b hd r h => (suffix_deserializeHeader b hd r h).1,
    fun fuel b v r h => ((suffix_fueled fuel).1 b v r h).1,
    fun fuel b l r h => ((suffix_fueled fuel).2.1 b l r h).1,
    fun fuel b o r h => ((suffix_fueled fuel).2.2.1 b o r h).1,
    fun fuel i c b os r h => (suffix_fueled fuel).2.2.2.1 i c b os r h,
    fun fuel i c b l r h => (suffix_fueled fuel).2.2.2.2.1 i c b l r h,
    fun fuel b kv r h => ((suffix_fueled fuel).2.2.2.2.2 b kv r h).1,
    fun fuel c b body r h => suffix_hashMapF fuel c b body r h,
    fun b m r h => ?_⟩
  have hs := suffix_message _ b m r h
  exact ⟨hs, hs.length_le⟩

/-- C9 (witness): the Message component at a concrete successful decode
with one trailing byte. -/
theorem c9_remainder_suffix_witness :
    ([9] : List Nat) <:+ [1, 0, 0, 4, 9] ∧
    ([9] : List Nat).length ≤ ([1, 0, 0, 4, 9] : List Nat).length :=
  c9_remainder_suffix.2.2.2.2.2.2.2.2.2.2.2.2.2.2 [1, 0, 0, 4, 9]
    ⟨⟨1, 0, 4⟩, .nil⟩ [9] rfl

/-- C10: Message deserialization terminates on every finite input buffer.
In the fuel embedding: with any fuel of at least `2 * length + 2` the
decoder returns the same final result as the standard budget, and that
result is never the fuel-exhaustion marker — every recursive descent
consumes bytes fast enough for the budget to suffice. -/
theorem c10_decoder_termination (bytes : List Nat) (fuel : Nat)
    (h : 2 * bytes.length + 2 ≤ fuel) :
    deserializeMessageF fuel bytes = Message.deserialize bytes ∧
    Message.deserialize bytes ≠ none := by
  have hne : deserializeMessageF (2 * bytes.length + 2) bytes ≠ none :=
    adequacy_messageF _ bytes le_rfl
  cases hM : deserializeMessageF (2 * bytes.length + 2) bytes with
  | none => exact absurd hM hne
  | some rr =>
    refine ⟨?_, ?_⟩
    · show deserializeMessageF fuel bytes =
        deserializeMessageF (2 * bytes.length + 2) bytes
      rw [hM, option_mono_le deserializeMessageF mono_messageF _ fuel bytes rr h hM]
    · show deserializeMessageF (2 * bytes.length + 2) bytes ≠ none
      exact hne

/-- C10 (witness): fuel-independence and termination at a concrete buffer. -/
theorem c10_decoder_termination_witness :
    deserializeMessageF 10 [1, 0, 0, 4] = Message.deserialize [1, 0, 0, 4] ∧
    Message.deserialize [1, 0, 0, 4] ≠ none :=
  c10_decoder_termination [1, 0, 0, 4] 10 (by decide)

/-- C4: for every valid encoded message and every strict truncation of its
buffer, Message deserialization returns a `TruncatedBuffer`,
`BufferTooShort` or `LengthMismatch` error — never a parsed value (and, the
embedding being total, no out-of-bounds access can occur). Truncations
inside the header fail with the truncated-header error; all others are
caught by the declared-length pre-check. -/
theorem c4_truncation_safety (m : Message) (h : messageValid m) (k : Nat)
    (hk : k < m.serialize.length) :
    ∃ e, Message.deserialize (m.serialize.take k) = some (.error e) ∧
      (e.isTruncated || e.isBufferTooShort || e.isLengthMismatch) = true := by
  obtain ⟨⟨v, fc, L⟩, body⟩ := m
  obtain ⟨h1, h2, h3, h4, h5, h6, h7⟩ := h
  simp only at h1 h2 h3 h4 h5
  subst h1
  have hshape : Message.serialize ⟨⟨1, fc, L⟩, body⟩ =
      1 :: fc :: (L / 256 % 256) :: (L % 256) :: serializeFields body := by
    simp [Message.serialize, serializeHeader, u16Bytes]
  have hsl : (Message.serialize ⟨⟨1, fc, L⟩, body⟩).length =
      4 + (serializeFields body).length := by
    rw [hshape]; simp; omega
  rw [hsl] at hk h3
  rw [hshape]
  by_cases hk4 : k < 4
  · refine ⟨.expectedHeader, ?_, rfl⟩
    interval_cases k <;>
      simp [Message.deserialize, deserializeMessageF, deserializeHeader]
  · obtain ⟨k', rfl⟩ : ∃ k', k = k' + 4 := ⟨k - 4, by omega⟩
    refine ⟨.bufferTooShort (k' + 4) L, ?_, rfl⟩
    have htake : (1 :: fc :: (L / 256 % 256) :: (L % 256) ::
        serializeFields body).take (k' + 4) =
        1 :: fc :: (L / 256 % 256) :: (L % 256) ::
          (serializeFields body).take k' := by
      simp [List.take_succ_cons]
    rw [htake]
    have hL : L / 256 % 256 * 256 + L % 256 = L := by omega
    have hlt : ((serializeFields body).take k').length = k' := by
      simp [List.length_take]
      omega
    have hcond : k' + 4 < L := by omega
    simp [Message.deserialize, deserializeMessageF, deserializeHeader, hL,
      hlt, hcond]

/-- C4 (witness): truncating a concrete valid encoded message to two bytes
yields an allowed error. -/
theorem c4_truncation_safety_witness :
    ∃ e, Message.deserialize ((Message.serialize ⟨⟨1, 0, 4⟩, .nil⟩).take 2) =
      some (.error e) ∧
      (e.isTruncated || e.isBufferTooShort || e.isLengthMismatch) = true :=
  c4_truncation_safety ⟨⟨1, 0, 4⟩, .nil⟩ (by decide) 2 (by decide)

/-- C5 (counterexample): the length-mismatch claim fails as stated when the
altered value is larger than the buffer. Raising the 69-byte flat-record
buffer's header length field from 0x45 to 0x46 (still in u16 range) makes
deserialization fail with `BufferTooShort` from the pre-check, not with
`LengthMismatch`. -/
theorem c5_length_mismatch_counterexample :
    Message.deserialize (flatBytes.set 3 0x46) =
      some (.error (.bufferTooShort 69 70)) ∧
    Err.isLengthMismatch (.bufferTooShort 69 70) = false :=
  ⟨rfl, rfl⟩

/-- C5 (amended): altering the header length field of a correctly formed
message buffer to any different value that does not exceed the buffer's
total length makes deserialization fail with `LengthMismatch` (reporting
the actually consumed byte count and the altered declared length); a larger
declared value fails with `BufferTooShort` instead. -/
theorem c5_length_mismatch_amended (m : Message) (h : messageValid m)
    (L' : Nat) (hne : L' ≠ m.serialize.length) (hle : L' ≤ m.serialize.length) :
    Message.deserialize
      (serializeHeader ⟨1, m.header.fieldCount, L'⟩ ++ serializeFields m.body) =
      some (.error (.lengthMismatch m.serialize.length L')) := by
  obtain ⟨⟨v, fc, L⟩, body⟩ := m
  obtain ⟨h1, h2, h3, h4, h5, h6, h7⟩ := h
  simp only at h1 h2 h3 h4 h5 ⊢
  subst h1
  have hshape : Message.serialize ⟨⟨1, fc, L⟩, body⟩ =
      1 :: fc :: (L / 256 % 256) :: (L % 256) :: serializeFields body := by
    simp [Message.serialize, serializeHeader, u16Bytes]
  have hsl : (Message.serialize ⟨⟨1, fc, L⟩, body⟩).length =
      4 + (serializeFields body).length := by
    rw [hshape]; simp; omega
  rw [hsl] at h3 hne hle ⊢
  have hshape' : serializeHeader ⟨1, fc, L'⟩ ++ serializeFields body =
      1 :: fc :: (L' / 256 % 256) :: (L' % 256) :: serializeFields body := by
    simp [serializeHeader, u16Bytes]
  rw [hshape']
  have hL' : L' / 256 % 256 * 256 + L' % 256 = L' := by omega
  have hfl := rt_fields body h6 0
    (2 * ((1 :: fc :: (L' / 256 % 256) :: (L' % 256) ::
      serializeFields body : List Nat)).length + 2) [] (by simp; omega)
  rw [List.append_nil] at hfl
  have hcoll := collectFields_self body h7
  subst h2
  simp only [List.length_cons] at hfl
  simp [Message.deserialize, deserializeMessageF, deserializeHeader,
    deserializeHashMapF, hL', hfl, hcoll]
  rw [show (serializeFields body).length + 1 + 1 + 1 + 1 =
      4 + (serializeFields body).length by omega,
    if_neg (show ¬(4 + (serializeFields body).length = L') by omega),
    if_neg (show ¬(4 + (serializeFields body).length < L') by omega)]

/-- C5 (witness): the amended length-mismatch property at a concrete
message (total length 4) with the length field altered to 3. -/
theorem c5_length_mismatch_amended_witness :
    Message.deserialize
      (serializeHeader ⟨1, (Message.mk ⟨1, 0, 4⟩ .nil).header.fieldCount, 3⟩ ++
        serializeFields (Message.mk ⟨1, 0, 4⟩ .nil).body) =
      some (.error
        (.lengthMismatch (Message.mk ⟨1, 0, 4⟩ .nil).serialize.length 3)) :=
  c5_length_mismatch_amended ⟨⟨1, 0, 4⟩, .nil⟩ (by decide) 3 (by decide)
    (by decide)

/-- C8: a buffer framing two well-formed fields with the same name under
field_count 2 (with a matching header length) decodes successfully into the
single-entry mapping holding the second field's value; and in general the
fold of decoded pairs into a mapping is last-write-wins: a final duplicate
entry determines the key's value. -/
theorem c8_duplicate_key_fold (k : List Nat) (v1 v2 : FieldValue)
    (hk1 : utf8Valid k = true) (hk2 : k.length ≤ 255)
    (hv1 : fieldValueWf v1 = true) (hv2 : fieldValueWf v2 = true)
    (L : Nat)
    (hL : L = 4 + (serializeFields (.cons k v1 (.cons k v2 .nil))).length)
    (hLr : L < 65536) :
    Message.deserialize
      (serializeHeader ⟨1, 2, L⟩ ++
        serializeFields (.cons k v1 (.cons k v2 .nil))) =
      some (.ok (⟨⟨1, 2, L⟩, .cons k v2 .nil⟩, [])) ∧
    (∀ (l : Fields) (k2 : List Nat) (v : FieldValue),
      Fields.lookup (collectFields (Fields.append l (.cons k2 v .nil))) k2 =
        some v) := by
  refine ⟨?_, fun l k2 v => lookup_collect_last l k2 v⟩
  have h6 : fieldsWf (Fields.cons k v1 (.cons k v2 .nil)) = true := by
    simp [fieldsWf, hk1, hk2, hv1, hv2]
  have hshape : serializeHeader ⟨1, 2, L⟩ ++
      serializeFields (Fields.cons k v1 (.cons k v2 .nil)) =
      1 :: 2 :: (L / 256 % 256) :: (L % 256) ::
        (serializeFields (Fields.cons k v1 (.cons k v2 .nil)) ++ []) := by
    simp [serializeHeader, u16Bytes]
  rw [hshape]
  have hx := decode_encoded_body 2 L (Fields.cons k v1 (.cons k v2 .nil)) []
    rfl hL hLr h6
    (2 * ((1 :: 2 :: (L / 256 % 256) :: (L % 256) ::
      (serializeFields (Fields.cons k v1 (.cons k v2 .nil)) ++ [])) :
        List Nat).length + 2)
    (by simp; omega)
  have hcoll : collectFields (Fields.cons k v1 (.cons k v2 .nil)) =
      Fields.cons k v2 .nil := by
    simp [collectFields, collectFieldsAux, insertPair]
  rw [hcoll] at hx
  exact hx

/-- C8 (witness): the duplicate-key fold at a concrete crafted buffer with
two integer fields named `[0x61]`. -/
theorem c8_duplicate_key_fold_witness :
    Message.deserialize
      (serializeHeader ⟨1, 2, 26⟩ ++
        serializeFields (.cons [97] (.integer 1)
          (.cons [97] (.integer 2) .nil))) =
      some (.ok (⟨⟨1, 2, 26⟩, .cons [97] (.integer 2) .nil⟩, [])) ∧
    Fields.lookup (collectFields (Fields.append
      (.cons [97] (.integer 1) .nil) (.cons [97] (.integer 2) .nil))) [97] =
      some (.integer 2) := by
  have hx := c8_duplicate_key_fold [97] (.integer 1) (.integer 2)
    (by decide) (by decide) (by decide) (by decide) 26 (by decide) (by decide)
  exact ⟨hx.1, hx.2 _ _ _⟩
